import Mathlib

/-!
Verification development for the keyboard-driven trajectory recorder in
src/piper_dev/data_collection/teleoperation.py.

The development contains three shallow embeddings of that module:

1. A pure model of the drift-free scheduler inside state_loop_tick_broadcast
   (the lines manipulating next_tick, time.perf_counter and time.sleep),
   with times as rationals.

2. A sequential model of the command dispatch in main (hotkeys b / n / m / q)
   acting on the demos dictionary, the session index idx, the two buffers and
   the four threading events, including the safety trim performed on save.

3. An interleaving transition system for the two worker loops
   (state_loop_tick_broadcast as the driver thread, rgb_loop_tick_broadcast
   as the camera thread) together with the primitive shared-state actions the
   main thread performs for each command.  Every Python statement that touches
   shared state (an Event read or write, a buffer append or clear) is one
   atomic transition; statements that touch only thread-local state (sampling,
   image conversion, prints, sleeps) are folded into the adjacent transition.
   The two buffers are modeled by their lengths, since every property of
   interest about them concerns lengths or emptiness only.

The repository module piper_dev.utils (current_state, frame_to_bgr_image,
bgrs_to_rgbs, connect_camera) is not part of the sources under verification;
following the interface specification, current_state always returns one
sample, and bgrs_to_rgbs is a per-frame, infallible color conversion, modeled
as List.map of an arbitrary function.
-/

/-! ### Part 1: the drift-free scheduler of state_loop_tick_broadcast

Source lines modeled:

    next_tick = None
    while not quit_on.is_set():
        if not record_on.is_set():
            next_tick = None
            time.sleep(0.01)
            continue
        now = time.perf_counter()
        if next_tick is None:
            next_tick = now + PERIOD
        if now < next_tick:
            time.sleep(next_tick - now)
        ...
        print(f"time_1: ...")
        ...
        next_tick += PERIOD
-/

/-- One console line printed by the body of the driver loop.  The source
prints an unconditional time_1 trace on every shot; the overrun constructor
exists so that the property "the overrun is reported" can be stated, and it
is never produced by `schedTick` because no statement of the loop prints an
overrun message. -/
inductive LogEntry : Type where
  | time1 (t : ℚ)
  | overrun (lateBy : ℚ)
deriving DecidableEq, Repr

/-- Result of the scheduling part of one driver-loop iteration: the deadline
used for this shot, the time slept before the shot, the stored next_tick
value after `next_tick += PERIOD`, and the log lines emitted. -/
structure SchedResult where
  deadline : ℚ
  sleepFor : ℚ
  next : Option ℚ
  logs : List LogEntry
deriving DecidableEq, Repr

/-- The scheduling behavior of one recording iteration of
state_loop_tick_broadcast, given the period, the stored next_tick (None on
the first shot after recording starts) and the wake time now. -/
def schedTick (P : ℚ) (next_tick : Option ℚ) (now : ℚ) : SchedResult :=
  let d : ℚ :=
    match next_tick with
    | none => now + P
    | some t => t
  { deadline := d
    sleepFor := if now < d then d - now else 0
    next := some (d + P)
    logs := [LogEntry.time1 now] }

/-- The idle branch of the driver loop: when record_on is clear, the source
executes `next_tick = None`, discarding the schedule. -/
def schedIdle (_next_tick : Option ℚ) : Option ℚ := none

/-- Deadlines of a sequence of consecutive recording iterations, given the
wake time of each iteration. -/
def schedDeadlines (P : ℚ) : Option ℚ → List ℚ → List ℚ
  | _, [] => []
  | nt, now :: rest =>
      let r := schedTick P nt now
      r.deadline :: schedDeadlines P r.next rest

/-- Whether a scheduling result reported an overrun. -/
def hasOverrunReport (r : SchedResult) : Bool :=
  r.logs.any fun e =>
    match e with
    | LogEntry.overrun _ => true
    | _ => false

theorem schedDeadlines_length (P : ℚ) (nt : Option ℚ) (nows : List ℚ) :
    (schedDeadlines P nt nows).length = nows.length := by
  induction nows generalizing nt with
  | nil => rfl
  | cons a rest ih => simp [schedDeadlines, ih]

/-- Once next_tick is stored, every deadline is read from the store and the
store advances by exactly P, regardless of the wake times. -/
theorem schedDeadlines_some (P t : ℚ) (nows : List ℚ) (i : ℕ) (h : i < nows.length) :
    (schedDeadlines P (some t) nows)[i]? = some (t + P * i) := by
  induction nows generalizing t i with
  | nil => simp at h
  | cons a rest ih =>
      cases i with
      | zero => simp [schedDeadlines, schedTick]
      | succ j =>
          have hj : j < rest.length := by simpa using h
          have := ih (t + P) j hj
          simp only [schedDeadlines, schedTick] at this ⊢
          rw [List.getElem?_cons_succ, this]
          congr 1
          push_cast
          ring

/-! ### Part 2: the sequential command model of main

Source lines modeled: the bodies of the four hotkey branches of the command
loop in main, the computation of the safety trim on save, the final tally
print `Total demos saved: len(demos)`, and the pickle payload.  The demos
dictionary maps the session key demo_idx (modeled by the index idx : ℕ) to
either the empty dict written by the b branch (modeled None) or the filled
dict written by the n branch (modeled Some of the stored pair).  Buffer
elements are abstract (ℕ).  The subscript demos[f"demo_idx"]["state"] in the
n branch raises KeyError when the key is absent; the model returns
Except.error in that case. -/

/-- Python dict assignment d[k] = v on an insertion-ordered association
list: overwrite in place if present, append otherwise. -/
def assocSet {V : Type} (k : ℕ) (v : V) : List (ℕ × V) → List (ℕ × V)
  | [] => [(k, v)]
  | (k', v') :: t => if k = k' then (k, v) :: t else (k', v') :: assocSet k v t

/-- Python dict lookup d[k], as an Option. -/
def assocGet {V : Type} (k : ℕ) : List (ℕ × V) → Option V
  | [] => none
  | (k', v') :: t => if k = k' then some v' else assocGet k t

/-- The value stored under one demo key: none models the empty dict created
by the b branch, some models the state and rgb entries written by the n
branch. -/
abbrev DemoVal := Option (List ℕ × List ℕ)

/-- The safety trim of the n branch:

    Ls, Lr = len(to_save_state), len(to_save_rgb)
    if Ls != Lr:
        L = min(Ls, Lr)
        print(colored(f"Trim tails to align: ..."))
        to_save_state = to_save_state[:L]
        to_save_rgb = to_save_rgb[:L]

Returns the two stored sequences and whether the trim message was printed. -/
def trimToSave {α β : Type} (to_save_state : List α) (to_save_rgb : List β) :
    List α × List β × Bool :=
  let ls := to_save_state.length
  let lr := to_save_rgb.length
  if ls ≠ lr then
    let l := min ls lr
    (to_save_state.take l, to_save_rgb.take l, true)
  else
    (to_save_state, to_save_rgb, false)

/-- The state of the main thread: the demos dictionary, the session index,
the two shared buffers and the four threading events (sequential view). -/
structure CtrlSt where
  demos : List (ℕ × DemoVal)
  idx : ℕ
  state : List ℕ
  rgb : List ℕ
  record_on : Bool
  quit_on : Bool
  tick_evt : Bool
  cam_done : Bool
deriving DecidableEq, Repr

/-- The state at program start: demos = {}, idx = 0, empty buffers, all
events clear. -/
def ctrl0 : CtrlSt :=
  { demos := [], idx := 0, state := [], rgb := [],
    record_on := false, quit_on := false, tick_evt := false, cam_done := false }

/-- Hotkey b: create demos[demo_idx] = {}, clear both buffers under the
lock, clear both events, set record_on. -/
def cmd_b (c : CtrlSt) : CtrlSt :=
  { c with
    demos := assocSet c.idx none c.demos
    state := []
    rgb := []
    tick_evt := false
    cam_done := false
    record_on := true }

/-- Hotkey n: clear record_on, set both events, snapshot and clear the
buffers under the lock, trim, store under demos[demo_idx], advance idx.
The store demos[f"demo_idx"]["state"] raises KeyError when demo_idx is not
a key of demos; the color conversion bgrs_to_rgbs is length-preserving and
is dropped from this length-level model. -/
def cmd_n (c : CtrlSt) : Except Unit CtrlSt :=
  let to_save_state := c.state
  let to_save_rgb := c.rgb
  let r := trimToSave to_save_state to_save_rgb
  match assocGet c.idx c.demos with
  | none => Except.error ()
  | some _ =>
      Except.ok
        { c with
          record_on := false
          tick_evt := true
          cam_done := true
          state := []
          rgb := []
          demos := assocSet c.idx (some (r.1, r.2.1)) c.demos
          idx := c.idx + 1 }

/-- Hotkey m: clear record_on, set both events, clear both buffers. -/
def cmd_m (c : CtrlSt) : CtrlSt :=
  { c with
    record_on := false
    tick_evt := true
    cam_done := true
    state := []
    rgb := [] }

/-- Hotkey q: clear record_on, set quit_on, set both events. -/
def cmd_q (c : CtrlSt) : CtrlSt :=
  { c with
    record_on := false
    quit_on := true
    tick_evt := true
    cam_done := true }

/-- The tally printed after both joins: `Total demos saved: len(demos)`.
It is printed before the instruction key is inserted. -/
def tallyPrinted (c : CtrlSt) : ℕ := c.demos.length

/-- The pickle payload written at exit: nothing when demos is empty,
otherwise the demos entries together with the instruction label that is
added to the dict just before pickle.dump. -/
def picklePayload (c : CtrlSt) (instruction : ℕ) :
    Option (List (ℕ × DemoVal) × ℕ) :=
  if c.demos.isEmpty then none else some (c.demos, instruction)

/-! ### Part 3: the interleaving model of the two worker loops

Program locations of the driver thread (state_loop_tick_broadcast).  Being
at a location means the statement of that location has not executed yet.

  d0     while not quit_on.is_set():          (read of quit_on)
  drec   if not record_on.is_set(): ...        (read of record_on; the idle
                                                sleep and next_tick reset are
                                                thread-local)
  dtick  tick_evt.set()                        (the perf_counter read and the
                                                sleep before it are local)
  dapp   sample = current_state(piper); state.append(sample)  (the append is
                                                the shared effect)
  dwait  cam_done.wait()                       (enabled when cam_done is set)
  dclear cam_done.clear()
  ddone  the loop has exited
-/
inductive DPC : Type where
  | d0 | drec | dtick | dapp | dwait | dclear | ddone
deriving DecidableEq, Repr

/-- Program locations of the camera thread (rgb_loop_tick_broadcast).

  f0     while not quit_on.is_set():           (read of quit_on)
  frec   if not record_on.is_set(): ...         (read of record_on)
  fwait  tick_evt.wait()                        (enabled when tick_evt is set)
  fclear tick_evt.clear()                       (consumes the tick)
  facq   while not quit_on.is_set() and record_on.is_set():  (the retry-loop
                                                 condition; on exit the
                                                 color_frame None check sends
                                                 the thread back to f0)
  fcap   frames = pipeline.wait_for_frames(100); cf = frames.get_color_frame()
                                                 (outcome ok: a valid frame,
                                                  conversion is local, break;
                                                  outcome not ok: retry)
  fapp   rgb.append(color_frame)
  fack   cam_done.set()
  fdone  the loop has exited
-/
inductive FPC : Type where
  | f0 | frec | fwait | fclear | facq | fcap | fapp | fack | fdone
deriving DecidableEq, Repr

/-- A configuration of the shared state and the two worker threads.  The two
buffers appear as their lengths.  The last four fields are event counters
that no transition reads: ticksConsumed counts executions of
tick_evt.clear() in the camera thread, framesAppended counts its appends,
acksSet counts its executions of cam_done.set(), and abandons counts its
exits from the retry loop without a frame. -/
structure Conf where
  record_on : Bool
  quit_on : Bool
  tick_evt : Bool
  cam_done : Bool
  stateLen : ℕ
  rgbLen : ℕ
  dpc : DPC
  fpc : FPC
  ticksConsumed : ℕ
  framesAppended : ℕ
  acksSet : ℕ
  abandons : ℕ
deriving DecidableEq, Repr

/-- One atomic step of the driver thread, none when it is blocked at
cam_done.wait() or has exited. -/
def state_loop_step (c : Conf) : Option Conf :=
  match c.dpc with
  | DPC.d0 => some (if c.quit_on then { c with dpc := DPC.ddone } else { c with dpc := DPC.drec })
  | DPC.drec => some (if c.record_on then { c with dpc := DPC.dtick } else { c with dpc := DPC.d0 })
  | DPC.dtick => some { c with tick_evt := true, dpc := DPC.dapp }
  | DPC.dapp => some { c with stateLen := c.stateLen + 1, dpc := DPC.dwait }
  | DPC.dwait => if c.cam_done then some { c with dpc := DPC.dclear } else none
  | DPC.dclear => some { c with cam_done := false, dpc := DPC.d0 }
  | DPC.ddone => none

/-- One atomic step of the camera thread; ok is the outcome of the frame
fetch attempt at fcap.  none when the thread is blocked at tick_evt.wait()
or has exited. -/
def rgb_loop_step (ok : Bool) (c : Conf) : Option Conf :=
  match c.fpc with
  | FPC.f0 => some (if c.quit_on then { c with fpc := FPC.fdone } else { c with fpc := FPC.frec })
  | FPC.frec => some (if c.record_on then { c with fpc := FPC.fwait } else { c with fpc := FPC.f0 })
  | FPC.fwait => if c.tick_evt then some { c with fpc := FPC.fclear } else none
  | FPC.fclear =>
      some { c with tick_evt := false, ticksConsumed := c.ticksConsumed + 1, fpc := FPC.facq }
  | FPC.facq =>
      some (if c.quit_on || !c.record_on
        then { c with fpc := FPC.f0, abandons := c.abandons + 1 }
        else { c with fpc := FPC.fcap })
  | FPC.fcap => some (if ok then { c with fpc := FPC.fapp } else { c with fpc := FPC.facq })
  | FPC.fapp =>
      some { c with rgbLen := c.rgbLen + 1, framesAppended := c.framesAppended + 1,
                    fpc := FPC.fack }
  | FPC.fack => some { c with cam_done := true, acksSet := c.acksSet + 1, fpc := FPC.f0 }
  | FPC.fdone => none

/-- Label of a worker step. -/
inductive WLab : Type where
  | dlab
  | flab (ok : Bool)
deriving DecidableEq, Repr

def wstep : WLab → Conf → Option Conf
  | WLab.dlab, c => state_loop_step c
  | WLab.flab ok, c => rgb_loop_step ok c

/-- A primitive shared-state action of the main thread: one Event write or
one buffer mutation performed while handling a hotkey. -/
inductive CAct : Type where
  | record_set | record_clear | quit_set | tick_set | tick_clear
  | cam_set | cam_clear | buf_clear
deriving DecidableEq, Repr

def cact (a : CAct) (c : Conf) : Conf :=
  match a with
  | CAct.record_set => { c with record_on := true }
  | CAct.record_clear => { c with record_on := false }
  | CAct.quit_set => { c with quit_on := true }
  | CAct.tick_set => { c with tick_evt := true }
  | CAct.tick_clear => { c with tick_evt := false }
  | CAct.cam_set => { c with cam_done := true }
  | CAct.cam_clear => { c with cam_done := false }
  | CAct.buf_clear => { c with stateLen := 0, rgbLen := 0 }

/-- The shared-state actions of the b branch, in source order: clear both
buffers under the lock, clear tick_evt, clear cam_done, set record_on.
(The demos insertion is main-thread local and lives in the Part 2 model.) -/
def startActs : List CAct :=
  [CAct.buf_clear, CAct.tick_clear, CAct.cam_clear, CAct.record_set]

/-- The shared-state actions of the n branch, in source order: clear
record_on, set tick_evt, set cam_done, then snapshot and clear both buffers
under the lock.  The snapshot reads the lengths present at the moment
buf_clear executes. -/
def saveActs : List CAct :=
  [CAct.record_clear, CAct.tick_set, CAct.cam_set, CAct.buf_clear]

/-- The shared-state actions of the m branch, in source order. -/
def rejectActs : List CAct :=
  [CAct.record_clear, CAct.tick_set, CAct.cam_set, CAct.buf_clear]

/-- The shared-state actions of the q branch, in source order: clear
record_on, set quit_on, set tick_evt, set cam_done. -/
def quitActs : List CAct :=
  [CAct.record_clear, CAct.quit_set, CAct.tick_set, CAct.cam_set]

/-- A system configuration: the shared state plus the queue of main-thread
actions still to be performed. -/
abbrev SConf := Conf × List CAct

/-- Label of a system step: a worker step or the next queued main-thread
action. -/
inductive SLab : Type where
  | w (l : WLab)
  | pop
deriving DecidableEq, Repr

def sstep : SLab → SConf → Option SConf
  | SLab.w l, (c, q) => (wstep l c).map fun c' => (c', q)
  | SLab.pop, (c, a :: q) => some (cact a c, q)
  | SLab.pop, (_, []) => none

/-- Reflexive-transitive closure of a step relation. -/
inductive RStar {α : Type} (r : α → α → Prop) : α → α → Prop where
  | refl (a : α) : RStar r a a
  | tail {a b c : α} : RStar r a b → r b c → RStar r a c

def SStepRel (s s' : SConf) : Prop := ∃ l, sstep l s = some s'

/-- Execute a list of labels in order. -/
def runS : List SLab → SConf → Option SConf
  | [], s => some s
  | l :: ls, s =>
      match sstep l s with
      | none => none
      | some s' => runS ls s'

theorem rstar_head {α : Type} {r : α → α → Prop} {a b c : α}
    (hab : r a b) (hbc : RStar r b c) : RStar r a c := by
  induction hbc with
  | refl => exact RStar.tail (RStar.refl a) hab
  | tail _ hdc ih => exact RStar.tail ih hdc

theorem rstar_of_runS {ls : List SLab} {a b : SConf} (h : runS ls a = some b) :
    RStar SStepRel a b := by
  induction ls generalizing a with
  | nil =>
      simp only [runS, Option.some.injEq] at h
      exact h ▸ RStar.refl a
  | cons l ls ih =>
      simp only [runS] at h
      cases hs : sstep l a with
      | none => rw [hs] at h; exact absurd h (by simp)
      | some m =>
          rw [hs] at h
          exact rstar_head ⟨l, hs⟩ (ih h)

theorem rstar_trans {α : Type} {r : α → α → Prop} {a b c : α}
    (h1 : RStar r a b) (h2 : RStar r b c) : RStar r a c := by
  induction h2 with
  | refl => exact h1
  | tail _ hbc ih => exact RStar.tail ih hbc

/-! ### Invariants of the handshake during undisturbed recording

Counting windows of the driver: dPreN marks that the tick broadcast of the
current shot has happened but its state append has not; dPostN marks that
the state append has happened but cam_done has not been consumed.  Counting
windows of the camera thread: midFN marks that a tick has been consumed but
neither append nor abandonment has happened; fAckN marks that the frame
append has happened but cam_done has not been set. -/

def dPreN : DPC → ℕ
  | DPC.dapp => 1
  | _ => 0

def dPostN : DPC → ℕ
  | DPC.dwait => 1
  | DPC.dclear => 1
  | _ => 0

def midFN : FPC → ℕ
  | FPC.facq => 1
  | FPC.fcap => 1
  | FPC.fapp => 1
  | _ => 0

def fAckN : FPC → ℕ
  | FPC.fack => 1
  | _ => 0

theorem midFN_le (p : FPC) : midFN p ≤ 1 := by cases p <;> simp [midFN]

theorem fAckN_le (p : FPC) : fAckN p ≤ 1 := by cases p <;> simp [fAckN]

theorem dPQ_le (p : DPC) : dPreN p + dPostN p ≤ 1 := by
  cases p <;> simp [dPreN, dPostN]

theorem mfK_le (p : FPC) : midFN p + fAckN p ≤ 1 := by
  cases p <;> simp [midFN, fAckN]

theorem toNat_le_one (b : Bool) : b.toNat ≤ 1 := by cases b <;> simp

/-- Invariant of a recording session while the main thread is not touching
the shared state: both flags in recording position, the two append
conservation equations relating buffer lengths, signals and thread
positions, and the two guard facts for the clear statements. -/
def phaseA (c : Conf) : Prop :=
  c.record_on = true ∧ c.quit_on = false ∧
  c.rgbLen + c.tick_evt.toNat + midFN c.fpc = c.stateLen + dPreN c.dpc ∧
  c.cam_done.toNat + c.stateLen + fAckN c.fpc = c.rgbLen + dPostN c.dpc ∧
  (c.fpc = FPC.fclear → c.tick_evt = true) ∧
  (c.dpc = DPC.dclear → c.cam_done = true)

theorem phaseA_wstep (l : WLab) (c c' : Conf) (h : wstep l c = some c')
    (hA : phaseA c) : phaseA c' := by
  obtain ⟨hrec, hquit, h1, h2, h3, h4⟩ := hA
  have hm := midFN_le c.fpc
  have hk := fAckN_le c.fpc
  have hpq := dPQ_le c.dpc
  have hmk := mfK_le c.fpc
  have ht := toNat_le_one c.tick_evt
  have hcb := toNat_le_one c.cam_done
  cases l with
  | dlab =>
      cases hd : c.dpc with
      | d0 =>
          rw [hd] at h1 h2
          simp only [wstep, state_loop_step, hd] at h
          rw [if_neg (by simp [hquit])] at h
          have hc := Option.some.inj h
          subst hc
          exact ⟨hrec, hquit, h1, h2, h3, by simp⟩
      | drec =>
          rw [hd] at h1 h2
          simp only [wstep, state_loop_step, hd] at h
          rw [if_pos hrec] at h
          have hc := Option.some.inj h
          subst hc
          exact ⟨hrec, hquit, h1, h2, h3, by simp⟩
      | dtick =>
          rw [hd] at h1 h2
          simp only [wstep, state_loop_step, hd, Option.some.injEq] at h
          subst h
          simp only [dPreN, dPostN] at h1 h2
          refine ⟨hrec, hquit, ?_, h2, fun _ => rfl, by simp⟩
          show c.rgbLen + (true : Bool).toNat + midFN c.fpc = c.stateLen + dPreN DPC.dapp
          simp only [dPreN, Bool.toNat_true]
          omega
      | dapp =>
          rw [hd] at h1 h2
          simp only [wstep, state_loop_step, hd, Option.some.injEq] at h
          subst h
          simp only [dPreN, dPostN] at h1 h2
          refine ⟨hrec, hquit, ?_, ?_, h3, by simp⟩
          · show c.rgbLen + c.tick_evt.toNat + midFN c.fpc = c.stateLen + 1 + dPreN DPC.dwait
            simp only [dPreN]
            omega
          · show c.cam_done.toNat + (c.stateLen + 1) + fAckN c.fpc = c.rgbLen + dPostN DPC.dwait
            simp only [dPostN]
            omega
      | dwait =>
          rw [hd] at h1 h2
          simp only [wstep, state_loop_step, hd] at h
          cases hcam : c.cam_done with
          | false =>
              rw [if_neg (by simp [hcam])] at h
              exact absurd h (by simp)
          | true =>
              rw [if_pos hcam] at h
              have hc := Option.some.inj h
              subst hc
              exact ⟨hrec, hquit, h1, h2, h3, fun _ => hcam⟩
      | dclear =>
          rw [hd] at h1 h2
          have hcam := h4 hd
          simp only [wstep, state_loop_step, hd, Option.some.injEq] at h
          subst h
          rw [hcam] at h2
          simp only [dPreN, dPostN, Bool.toNat_true] at h1 h2
          refine ⟨hrec, hquit, h1, ?_, h3, by simp⟩
          show (false : Bool).toNat + c.stateLen + fAckN c.fpc = c.rgbLen + dPostN DPC.d0
          simp only [dPostN, Bool.toNat_false]
          omega
      | ddone =>
          simp only [wstep, state_loop_step, hd] at h
          exact absurd h (by simp)
  | flab ok =>
      cases hf : c.fpc with
      | f0 =>
          rw [hf] at h1 h2 h3
          simp only [wstep, rgb_loop_step, hf] at h
          rw [if_neg (by simp [hquit])] at h
          have hc := Option.some.inj h
          subst hc
          exact ⟨hrec, hquit, h1, h2, by simp, h4⟩
      | frec =>
          rw [hf] at h1 h2 h3
          simp only [wstep, rgb_loop_step, hf] at h
          rw [if_pos hrec] at h
          have hc := Option.some.inj h
          subst hc
          exact ⟨hrec, hquit, h1, h2, by simp, h4⟩
      | fwait =>
          rw [hf] at h1 h2 h3
          simp only [wstep, rgb_loop_step, hf] at h
          cases htick : c.tick_evt with
          | false =>
              rw [if_neg (by simp [htick])] at h
              exact absurd h (by simp)
          | true =>
              rw [if_pos htick] at h
              have hc := Option.some.inj h
              subst hc
              exact ⟨hrec, hquit, h1, h2, fun _ => htick, h4⟩
      | fclear =>
          have htick := h3 hf
          rw [hf] at h1 h2
          simp only [wstep, rgb_loop_step, hf, Option.some.injEq] at h
          subst h
          rw [htick] at h1
          simp only [midFN, fAckN, Bool.toNat_true] at h1 h2
          refine ⟨hrec, hquit, ?_, h2, by simp, h4⟩
          show c.rgbLen + (false : Bool).toNat + midFN FPC.facq = c.stateLen + dPreN c.dpc
          simp only [midFN, Bool.toNat_false]
          omega
      | facq =>
          rw [hf] at h1 h2
          simp only [wstep, rgb_loop_step, hf] at h
          rw [if_neg (by simp [hquit, hrec])] at h
          have hc := Option.some.inj h
          subst hc
          exact ⟨hrec, hquit, h1, h2, by simp, h4⟩
      | fcap =>
          rw [hf] at h1 h2
          simp only [wstep, rgb_loop_step, hf] at h
          cases ok with
          | false =>
              rw [if_neg (by simp)] at h
              have hc := Option.some.inj h
              subst hc
              exact ⟨hrec, hquit, h1, h2, by simp, h4⟩
          | true =>
              rw [if_pos rfl] at h
              have hc := Option.some.inj h
              subst hc
              exact ⟨hrec, hquit, h1, h2, by simp, h4⟩
      | fapp =>
          rw [hf] at h1 h2
          simp only [wstep, rgb_loop_step, hf, Option.some.injEq] at h
          subst h
          simp only [midFN, fAckN] at h1 h2
          refine ⟨hrec, hquit, ?_, ?_, by simp, h4⟩
          · show c.rgbLen + 1 + c.tick_evt.toNat + midFN FPC.fack = c.stateLen + dPreN c.dpc
            simp only [midFN]
            omega
          · show c.cam_done.toNat + c.stateLen + fAckN FPC.fack = c.rgbLen + 1 + dPostN c.dpc
            simp only [fAckN]
            omega
      | fack =>
          rw [hf] at h1 h2
          simp only [wstep, rgb_loop_step, hf, Option.some.injEq] at h
          subst h
          simp only [midFN, fAckN] at h1 h2
          refine ⟨hrec, hquit, h1, ?_, by simp, fun _ => rfl⟩
          show (true : Bool).toNat + c.stateLen + fAckN FPC.f0 = c.rgbLen + dPostN c.dpc
          simp only [fAckN, Bool.toNat_true]
          omega
      | fdone =>
          simp only [wstep, rgb_loop_step, hf] at h
          exact absurd h (by simp)

/-- Invariant after the save or reject branch has cleared record_on: the
two buffer lengths stay within one of each other, and the only transitions
that could widen the gap (the state append at dapp, the frame append at
fapp) are guarded by the facts that the thread reached those locations with
the other buffer at least as long.  New cycles cannot start because
record_on is false. -/
def phW (c : Conf) : Prop :=
  c.record_on = false ∧ c.quit_on = false ∧
  c.stateLen ≤ c.rgbLen + 1 ∧ c.rgbLen ≤ c.stateLen + 1 ∧
  (c.dpc = DPC.dtick → c.stateLen ≤ c.rgbLen) ∧
  (c.dpc = DPC.dapp → c.stateLen ≤ c.rgbLen) ∧
  (c.fpc = FPC.fcap → c.rgbLen ≤ c.stateLen) ∧
  (c.fpc = FPC.fapp → c.rgbLen ≤ c.stateLen)

theorem phW_wstep (l : WLab) (c c' : Conf) (h : wstep l c = some c')
    (hW : phW c) : phW c' := by
  obtain ⟨hrec, hquit, hb1, hb2, w1, w2, w3, w4⟩ := hW
  cases l with
  | dlab =>
      cases hd : c.dpc with
      | d0 =>
          simp only [wstep, state_loop_step, hd] at h
          rw [if_neg (by simp [hquit])] at h
          have hc := Option.some.inj h
          subst hc
          exact ⟨hrec, hquit, hb1, hb2, by simp, by simp, w3, w4⟩
      | drec =>
          simp only [wstep, state_loop_step, hd] at h
          rw [if_neg (by simp [hrec])] at h
          have hc := Option.some.inj h
          subst hc
          exact ⟨hrec, hquit, hb1, hb2, by simp, by simp, w3, w4⟩
      | dtick =>
          simp only [wstep, state_loop_step, hd, Option.some.injEq] at h
          subst h
          exact ⟨hrec, hquit, hb1, hb2, by simp, fun _ => w1 hd, w3, w4⟩
      | dapp =>
          simp only [wstep, state_loop_step, hd, Option.some.injEq] at h
          subst h
          have hle := w2 hd
          refine ⟨hrec, hquit, ?_, ?_, by simp, by simp, ?_, ?_⟩
          · show c.stateLen + 1 ≤ c.rgbLen + 1
            omega
          · show c.rgbLen ≤ c.stateLen + 1 + 1
            omega
          · intro hx
            show c.rgbLen ≤ c.stateLen + 1
            exact le_trans (w3 hx) (by omega)
          · intro hx
            show c.rgbLen ≤ c.stateLen + 1
            exact le_trans (w4 hx) (by omega)
      | dwait =>
          simp only [wstep, state_loop_step, hd] at h
          cases hcam : c.cam_done with
          | false =>
              rw [if_neg (by simp [hcam])] at h
              exact absurd h (by simp)
          | true =>
              rw [if_pos hcam] at h
              have hc := Option.some.inj h
              subst hc
              exact ⟨hrec, hquit, hb1, hb2, by simp, by simp, w3, w4⟩
      | dclear =>
          simp only [wstep, state_loop_step, hd, Option.some.injEq] at h
          subst h
          exact ⟨hrec, hquit, hb1, hb2, by simp, by simp, w3, w4⟩
      | ddone =>
          simp only [wstep, state_loop_step, hd] at h
          exact absurd h (by simp)
  | flab ok =>
      cases hf : c.fpc with
      | f0 =>
          simp only [wstep, rgb_loop_step, hf] at h
          rw [if_neg (by simp [hquit])] at h
          have hc := Option.some.inj h
          subst hc
          exact ⟨hrec, hquit, hb1, hb2, w1, w2, by simp, by simp⟩
      | frec =>
          simp only [wstep, rgb_loop_step, hf] at h
          rw [if_neg (by simp [hrec])] at h
          have hc := Option.some.inj h
          subst hc
          exact ⟨hrec, hquit, hb1, hb2, w1, w2, by simp, by simp⟩
      | fwait =>
          simp only [wstep, rgb_loop_step, hf] at h
          cases htick : c.tick_evt with
          | false =>
              rw [if_neg (by simp [htick])] at h
              exact absurd h (by simp)
          | true =>
              rw [if_pos htick] at h
              have hc := Option.some.inj h
              subst hc
              exact ⟨hrec, hquit, hb1, hb2, w1, w2, by simp, by simp⟩
      | fclear =>
          simp only [wstep, rgb_loop_step, hf, Option.some.injEq] at h
          subst h
          exact ⟨hrec, hquit, hb1, hb2, w1, w2, by simp, by simp⟩
      | facq =>
          simp only [wstep, rgb_loop_step, hf] at h
          rw [if_pos (by simp [hrec])] at h
          have hc := Option.some.inj h
          subst hc
          exact ⟨hrec, hquit, hb1, hb2, w1, w2, by simp, by simp⟩
      | fcap =>
          simp only [wstep, rgb_loop_step, hf] at h
          have hle := w3 hf
          cases ok with
          | false =>
              rw [if_neg (by simp)] at h
              have hc := Option.some.inj h
              subst hc
              exact ⟨hrec, hquit, hb1, hb2, w1, w2, by simp, by simp⟩
          | true =>
              rw [if_pos rfl] at h
              have hc := Option.some.inj h
              subst hc
              exact ⟨hrec, hquit, hb1, hb2, w1, w2, by simp, fun _ => hle⟩
      | fapp =>
          simp only [wstep, rgb_loop_step, hf, Option.some.injEq] at h
          subst h
          have hle := w4 hf
          refine ⟨hrec, hquit, ?_, ?_, ?_, ?_, by simp, by simp⟩
          · show c.stateLen ≤ c.rgbLen + 1 + 1
            omega
          · show c.rgbLen + 1 ≤ c.stateLen + 1
            omega
          · intro hx
            show c.stateLen ≤ c.rgbLen + 1
            exact le_trans (w1 hx) (by omega)
          · intro hx
            show c.stateLen ≤ c.rgbLen + 1
            exact le_trans (w2 hx) (by omega)
      | fack =>
          simp only [wstep, rgb_loop_step, hf, Option.some.injEq] at h
          subst h
          exact ⟨hrec, hquit, hb1, hb2, w1, w2, by simp, by simp⟩
      | fdone =>
          simp only [wstep, rgb_loop_step, hf] at h
          exact absurd h (by simp)

/-- Clearing record_on at the start of the save or reject branch turns the
recording invariant into the winding-down invariant. -/
theorem phaseA_to_phW (c : Conf) (hA : phaseA c) : phW (cact CAct.record_clear c) := by
  obtain ⟨hrec, hquit, h1, h2, h3, h4⟩ := hA
  have hpq := dPQ_le c.dpc
  have hmk := mfK_le c.fpc
  have ht := toNat_le_one c.tick_evt
  have hcb := toNat_le_one c.cam_done
  have hm := midFN_le c.fpc
  have hk := fAckN_le c.fpc
  refine ⟨rfl, hquit, ?_, ?_, ?_, ?_, ?_, ?_⟩
  · show c.stateLen ≤ c.rgbLen + 1
    omega
  · show c.rgbLen ≤ c.stateLen + 1
    omega
  · intro hx
    show c.stateLen ≤ c.rgbLen
    replace hx : c.dpc = DPC.dtick := hx
    rw [hx] at h1 h2
    simp only [dPreN, dPostN] at h1 h2
    omega
  · intro hx
    show c.stateLen ≤ c.rgbLen
    replace hx : c.dpc = DPC.dapp := hx
    rw [hx] at h1 h2
    simp only [dPreN, dPostN] at h1 h2
    omega
  · intro hx
    show c.rgbLen ≤ c.stateLen
    replace hx : c.fpc = FPC.fcap := hx
    rw [hx] at h1 h2
    simp only [midFN, fAckN] at h1 h2
    omega
  · intro hx
    show c.rgbLen ≤ c.stateLen
    replace hx : c.fpc = FPC.fapp := hx
    rw [hx] at h1 h2
    simp only [midFN, fAckN] at h1 h2
    omega

theorem phW_tick_set (c : Conf) (h : phW c) : phW (cact CAct.tick_set c) := h

theorem phW_cam_set (c : Conf) (h : phW c) : phW (cact CAct.cam_set c) := h

/-- Invariant of a recording session with the save command interleaved: the
remaining queue of save actions determines the phase. -/
def saveInv (s : SConf) : Prop :=
  (s.2 = saveActs ∧ phaseA s.1) ∨
  (s.2 = [CAct.tick_set, CAct.cam_set, CAct.buf_clear] ∧ phW s.1) ∨
  (s.2 = [CAct.cam_set, CAct.buf_clear] ∧ phW s.1) ∨
  (s.2 = [CAct.buf_clear] ∧ phW s.1) ∨
  s.2 = []

theorem saveInv_step (s s' : SConf) (h : SStepRel s s') (hI : saveInv s) : saveInv s' := by
  obtain ⟨l, hl⟩ := h
  obtain ⟨c, q⟩ := s
  cases l with
  | w wl =>
      simp only [sstep, Option.map_eq_some'] at hl
      obtain ⟨c', hw, hs'⟩ := hl
      subst hs'
      rcases hI with ⟨hq, hA⟩ | ⟨hq, hW⟩ | ⟨hq, hW⟩ | ⟨hq, hW⟩ | hq <;> subst hq
      · exact Or.inl ⟨rfl, phaseA_wstep wl c c' hw hA⟩
      · exact Or.inr (Or.inl ⟨rfl, phW_wstep wl c c' hw hW⟩)
      · exact Or.inr (Or.inr (Or.inl ⟨rfl, phW_wstep wl c c' hw hW⟩))
      · exact Or.inr (Or.inr (Or.inr (Or.inl ⟨rfl, phW_wstep wl c c' hw hW⟩)))
      · exact Or.inr (Or.inr (Or.inr (Or.inr rfl)))
  | pop =>
      rcases hI with ⟨hq, hA⟩ | ⟨hq, hW⟩ | ⟨hq, hW⟩ | ⟨hq, hW⟩ | hq <;> subst hq
      · simp only [saveActs, sstep, Option.some.injEq] at hl
        subst hl
        exact Or.inr (Or.inl ⟨rfl, phaseA_to_phW c hA⟩)
      · simp only [sstep, Option.some.injEq] at hl
        subst hl
        exact Or.inr (Or.inr (Or.inl ⟨rfl, phW_tick_set c hW⟩))
      · simp only [sstep, Option.some.injEq] at hl
        subst hl
        exact Or.inr (Or.inr (Or.inr (Or.inl ⟨rfl, phW_cam_set c hW⟩)))
      · simp only [sstep, Option.some.injEq] at hl
        subst hl
        exact Or.inr (Or.inr (Or.inr (Or.inr rfl)))
      · simp only [sstep] at hl
        exact absurd hl (by simp)

/-- A configuration at the start of a recording session: the b branch has
just finished (record_on set, both buffers empty, both events clear), both
workers are at their idle checks, and no quit has happened. -/
def cleanStart (c : Conf) : Prop :=
  c.record_on = true ∧ c.quit_on = false ∧ c.tick_evt = false ∧ c.cam_done = false ∧
  c.stateLen = 0 ∧ c.rgbLen = 0 ∧
  (c.dpc = DPC.d0 ∨ c.dpc = DPC.drec) ∧ (c.fpc = FPC.f0 ∨ c.fpc = FPC.frec)

instance (c : Conf) : Decidable (cleanStart c) := by
  unfold cleanStart
  infer_instance

theorem cleanStart_phaseA (c : Conf) (h : cleanStart c) : phaseA c := by
  obtain ⟨hrec, hquit, htick, hcam, hst, hrgb, hd, hf⟩ := h
  refine ⟨hrec, hquit, ?_, ?_, ?_, ?_⟩
  · rcases hd with hd | hd <;> rcases hf with hf | hf <;>
      rw [hd, hf, htick, hst, hrgb] <;> rfl
  · rcases hd with hd | hd <;> rcases hf with hf | hf <;>
      rw [hd, hf, hcam, hst, hrgb] <;> rfl
  · intro hx
    rcases hf with hf | hf <;> rw [hf] at hx <;> exact absurd hx (by simp)
  · intro hx
    rcases hd with hd | hd <;> rw [hd] at hx <;> exact absurd hx (by simp)

theorem saveInv_reach (c0 : Conf) (s : SConf) (h0 : cleanStart c0)
    (hr : RStar SStepRel (c0, saveActs) s) : saveInv s := by
  induction hr with
  | refl => exact Or.inl ⟨rfl, cleanStart_phaseA c0 h0⟩
  | tail _ hbc ih => exact saveInv_step _ _ hbc ih

/-- C1: starting from the beginning of a recording session with the save
command interleaved arbitrarily with the two worker loops, (1) while the
save command has not started, whenever both workers are back at the top of
their loops (every completed shot), the two buffers have equal lengths, and
(2) at the moment the save branch takes its buffer snapshot (record_on
cleared and both events force-set already), the two lengths differ by at
most one. -/
theorem c1_buffer_alignment (c0 : Conf) (s : SConf)
    (h0 : cleanStart c0) (hr : RStar SStepRel (c0, saveActs) s) :
    (s.2 = saveActs → s.1.dpc = DPC.d0 → s.1.fpc = FPC.f0 →
      s.1.stateLen = s.1.rgbLen) ∧
    (s.2 = [CAct.buf_clear] →
      s.1.stateLen ≤ s.1.rgbLen + 1 ∧ s.1.rgbLen ≤ s.1.stateLen + 1) := by
  have hinv := saveInv_reach c0 s h0 hr
  constructor
  · intro hq hd hf
    rcases hinv with ⟨_, hA⟩ | ⟨hq2, _⟩ | ⟨hq2, _⟩ | ⟨hq2, _⟩ | hq2
    · obtain ⟨_, _, h1, h2, _, _⟩ := hA
      rw [hd, hf] at h1 h2
      simp only [dPreN, dPostN, midFN, fAckN] at h1 h2
      have ht := toNat_le_one s.1.tick_evt
      have hcb := toNat_le_one s.1.cam_done
      omega
    · rw [hq] at hq2; exact absurd hq2 (by simp [saveActs])
    · rw [hq] at hq2; exact absurd hq2 (by simp [saveActs])
    · rw [hq] at hq2; exact absurd hq2 (by simp [saveActs])
    · rw [hq] at hq2; exact absurd hq2 (by simp [saveActs])
  · intro hq
    rcases hinv with ⟨hq2, _⟩ | ⟨hq2, _⟩ | ⟨hq2, _⟩ | ⟨_, hW⟩ | hq2
    · rw [hq] at hq2; exact absurd hq2 (by simp [saveActs])
    · rw [hq] at hq2; exact absurd hq2 (by simp)
    · rw [hq] at hq2; exact absurd hq2 (by simp)
    · exact ⟨hW.2.2.1, hW.2.2.2.1⟩
    · rw [hq] at hq2; exact absurd hq2 (by simp)

/-- A concrete session start used to exercise the C1 statement. -/
def c1c0 : Conf :=
  { record_on := true, quit_on := false, tick_evt := false, cam_done := false,
    stateLen := 0, rgbLen := 0, dpc := DPC.d0, fpc := FPC.f0,
    ticksConsumed := 0, framesAppended := 0, acksSet := 0, abandons := 0 }

/-- One complete shot of the handshake: the driver broadcasts the tick,
appends its sample and blocks; the camera consumes the tick, captures on
the first attempt, appends and acks; the driver consumes the ack. -/
def c1labels : List SLab :=
  [SLab.w WLab.dlab, SLab.w WLab.dlab, SLab.w WLab.dlab, SLab.w WLab.dlab,
   SLab.w (WLab.flab true), SLab.w (WLab.flab true), SLab.w (WLab.flab true),
   SLab.w (WLab.flab true), SLab.w (WLab.flab true), SLab.w (WLab.flab true),
   SLab.w (WLab.flab true), SLab.w (WLab.flab true),
   SLab.w WLab.dlab, SLab.w WLab.dlab]

def c1final : SConf := (runS c1labels (c1c0, saveActs)).getD (c1c0, [])

theorem c1_buffer_alignment_witness :
    cleanStart c1c0 ∧ c1final.1.stateLen = c1final.1.rgbLen := by
  have hrun : runS c1labels (c1c0, saveActs) = some c1final := by decide
  exact ⟨by decide,
    (c1_buffer_alignment c1c0 c1final (by decide) (rstar_of_runS hrun)).1
      (by decide) (by decide) (by decide)⟩

/-! ### Termination after the quit command -/

/-- Worker steps never write the two flags: record_on and quit_on belong to
the main thread. -/
theorem wstep_flags (l : WLab) (c c' : Conf) (h : wstep l c = some c') :
    c'.record_on = c.record_on ∧ c'.quit_on = c.quit_on := by
  cases l with
  | dlab =>
      cases hd : c.dpc
      all_goals simp only [wstep, state_loop_step, hd] at h
      all_goals
        first
        | (have hc := Option.some.inj h
           subst hc
           first
           | exact ⟨rfl, rfl⟩
           | (split <;> exact ⟨rfl, rfl⟩))
        | (split at h <;>
            first
            | exact Option.noConfusion h
            | (have hc := Option.some.inj h
               subst hc
               exact ⟨rfl, rfl⟩))
        | exact Option.noConfusion h
  | flab ok =>
      cases hf : c.fpc
      all_goals simp only [wstep, rgb_loop_step, hf] at h
      all_goals
        first
        | (have hc := Option.some.inj h
           subst hc
           first
           | exact ⟨rfl, rfl⟩
           | (split <;> exact ⟨rfl, rfl⟩))
        | (split at h <;>
            first
            | exact Option.noConfusion h
            | (have hc := Option.some.inj h
               subst hc
               exact ⟨rfl, rfl⟩))
        | exact Option.noConfusion h

/-- State of the system once the q branch has performed all four writes:
quit_on set, record_on clear, and the two wake guarantees: if the camera
thread still sits at tick_evt.wait() the tick is set, and if the driver is
anywhere between its tick broadcast and its cam_done.clear() the completion
event is set.  Only the driver itself can consume these, after which it
never needs them again. -/
def postQuit (c : Conf) : Prop :=
  c.quit_on = true ∧ c.record_on = false ∧
  (c.fpc = FPC.fwait → c.tick_evt = true) ∧
  ((c.dpc = DPC.dtick ∨ c.dpc = DPC.dapp ∨ c.dpc = DPC.dwait ∨ c.dpc = DPC.dclear) →
    c.cam_done = true)

theorem postQuit_wstep (l : WLab) (c c' : Conf) (h : wstep l c = some c')
    (hP : postQuit c) : postQuit c' := by
  obtain ⟨hquit, hrec, h3, h4⟩ := hP
  cases l with
  | dlab =>
      cases hd : c.dpc with
      | d0 =>
          simp only [wstep, state_loop_step, hd] at h
          rw [if_pos hquit] at h
          have hc := Option.some.inj h
          subst hc
          exact ⟨hquit, hrec, h3, by simp⟩
      | drec =>
          simp only [wstep, state_loop_step, hd] at h
          rw [if_neg (by simp [hrec])] at h
          have hc := Option.some.inj h
          subst hc
          exact ⟨hquit, hrec, h3, by simp⟩
      | dtick =>
          simp only [wstep, state_loop_step, hd, Option.some.injEq] at h
          subst h
          exact ⟨hquit, hrec, fun _ => rfl, fun _ => h4 (Or.inl hd)⟩
      | dapp =>
          simp only [wstep, state_loop_step, hd, Option.some.injEq] at h
          subst h
          exact ⟨hquit, hrec, h3, fun _ => h4 (Or.inr (Or.inl hd))⟩
      | dwait =>
          simp only [wstep, state_loop_step, hd] at h
          have hcam := h4 (Or.inr (Or.inr (Or.inl hd)))
          rw [if_pos hcam] at h
          have hc := Option.some.inj h
          subst hc
          exact ⟨hquit, hrec, h3, fun _ => hcam⟩
      | dclear =>
          simp only [wstep, state_loop_step, hd, Option.some.injEq] at h
          subst h
          exact ⟨hquit, hrec, h3, by simp⟩
      | ddone =>
          simp only [wstep, state_loop_step, hd] at h
          exact absurd h (by simp)
  | flab ok =>
      cases hf : c.fpc with
      | f0 =>
          simp only [wstep, rgb_loop_step, hf] at h
          rw [if_pos hquit] at h
          have hc := Option.some.inj h
          subst hc
          exact ⟨hquit, hrec, by simp, h4⟩
      | frec =>
          simp only [wstep, rgb_loop_step, hf] at h
          rw [if_neg (by simp [hrec])] at h
          have hc := Option.some.inj h
          subst hc
          exact ⟨hquit, hrec, by simp, h4⟩
      | fwait =>
          simp only [wstep, rgb_loop_step, hf] at h
          have htick := h3 hf
          rw [if_pos htick] at h
          have hc := Option.some.inj h
          subst hc
          exact ⟨hquit, hrec, by simp, h4⟩
      | fclear =>
          simp only [wstep, rgb_loop_step, hf, Option.some.injEq] at h
          subst h
          exact ⟨hquit, hrec, by simp, h4⟩
      | facq =>
          simp only [wstep, rgb_loop_step, hf] at h
          rw [if_pos (by simp [hquit])] at h
          have hc := Option.some.inj h
          subst hc
          exact ⟨hquit, hrec, by simp, h4⟩
      | fcap =>
          simp only [wstep, rgb_loop_step, hf] at h
          cases ok with
          | false =>
              rw [if_neg (by simp)] at h
              have hc := Option.some.inj h
              subst hc
              exact ⟨hquit, hrec, by simp, h4⟩
          | true =>
              rw [if_pos rfl] at h
              have hc := Option.some.inj h
              subst hc
              exact ⟨hquit, hrec, by simp, h4⟩
      | fapp =>
          simp only [wstep, rgb_loop_step, hf, Option.some.injEq] at h
          subst h
          exact ⟨hquit, hrec, by simp, h4⟩
      | fack =>
          simp only [wstep, rgb_loop_step, hf, Option.some.injEq] at h
          subst h
          exact ⟨hquit, hrec, by simp, fun _ => rfl⟩
      | fdone =>
          simp only [wstep, rgb_loop_step, hf] at h
          exact absurd h (by simp)

/-- Rank of the driver location along its remaining path to exit after
quit. -/
def dRank : DPC → ℕ
  | DPC.ddone => 0
  | DPC.d0 => 1
  | DPC.drec => 2
  | DPC.dclear => 3
  | DPC.dwait => 4
  | DPC.dapp => 5
  | DPC.dtick => 6

/-- Rank of the camera location along its remaining path to exit after
quit. -/
def fRank : FPC → ℕ
  | FPC.fdone => 0
  | FPC.f0 => 1
  | FPC.frec => 2
  | FPC.fack => 3
  | FPC.fapp => 4
  | FPC.facq => 5
  | FPC.fcap => 6
  | FPC.fclear => 7
  | FPC.fwait => 8

def wMeasure (c : Conf) : ℕ := dRank c.dpc + fRank c.fpc

theorem wMeasure_le (c : Conf) : wMeasure c ≤ 14 := by
  have h1 : dRank c.dpc ≤ 6 := by cases c.dpc <;> simp [dRank]
  have h2 : fRank c.fpc ≤ 8 := by cases c.fpc <;> simp [fRank]
  unfold wMeasure
  omega

/-- After the quit command every enabled worker step strictly lowers the
measure: neither loop can start a new shot with record_on clear and quit_on
set, so both drain to their exits. -/
theorem postQuit_decrease (l : WLab) (c c' : Conf) (h : wstep l c = some c')
    (hP : postQuit c) : wMeasure c' < wMeasure c := by
  obtain ⟨hquit, hrec, h3, h4⟩ := hP
  cases l with
  | dlab =>
      cases hd : c.dpc
      all_goals simp only [wstep, state_loop_step, hd] at h
      case d0 =>
          rw [if_pos hquit] at h
          have hc := Option.some.inj h
          subst hc
          simp [wMeasure, dRank, hd]
      case drec =>
          rw [if_neg (by simp [hrec])] at h
          have hc := Option.some.inj h
          subst hc
          simp [wMeasure, dRank, hd]
      case dtick =>
          have hc := Option.some.inj h
          subst hc
          simp [wMeasure, dRank, hd]
      case dapp =>
          have hc := Option.some.inj h
          subst hc
          simp [wMeasure, dRank, hd]
      case dwait =>
          rw [if_pos (h4 (Or.inr (Or.inr (Or.inl hd))))] at h
          have hc := Option.some.inj h
          subst hc
          simp [wMeasure, dRank, hd]
      case dclear =>
          have hc := Option.some.inj h
          subst hc
          simp [wMeasure, dRank, hd]
      case ddone => exact absurd h (by simp)
  | flab ok =>
      cases hf : c.fpc
      all_goals simp only [wstep, rgb_loop_step, hf] at h
      case f0 =>
          rw [if_pos hquit] at h
          have hc := Option.some.inj h
          subst hc
          simp [wMeasure, fRank, hf]
      case frec =>
          rw [if_neg (by simp [hrec])] at h
          have hc := Option.some.inj h
          subst hc
          simp [wMeasure, fRank, hf]
      case fwait =>
          rw [if_pos (h3 hf)] at h
          have hc := Option.some.inj h
          subst hc
          simp [wMeasure, fRank, hf]
      case fclear =>
          have hc := Option.some.inj h
          subst hc
          simp [wMeasure, fRank, hf]
      case facq =>
          rw [if_pos (by simp [hquit])] at h
          have hc := Option.some.inj h
          subst hc
          simp [wMeasure, fRank, hf]
      case fcap =>
          cases ok with
          | false =>
              rw [if_neg (by simp)] at h
              have hc := Option.some.inj h
              subst hc
              simp [wMeasure, fRank, hf]
          | true =>
              rw [if_pos rfl] at h
              have hc := Option.some.inj h
              subst hc
              simp [wMeasure, fRank, hf]
      case fapp =>
          have hc := Option.some.inj h
          subst hc
          simp [wMeasure, fRank, hf]
      case fack =>
          have hc := Option.some.inj h
          subst hc
          simp [wMeasure, fRank, hf]
      case fdone => exact absurd h (by simp)

/-- After the quit command, a worker loop that has not exited always has an
enabled step: the force-set events make the two blocking waits pass. -/
theorem postQuit_progress (c : Conf) (hP : postQuit c) :
    (c.dpc ≠ DPC.ddone → ∃ c', wstep WLab.dlab c = some c') ∧
    (c.fpc ≠ FPC.fdone → ∃ c', wstep (WLab.flab true) c = some c') := by
  obtain ⟨hquit, hrec, h3, h4⟩ := hP
  constructor
  · intro hne
    cases hd : c.dpc
    case ddone => exact absurd hd hne
    case dwait =>
        refine ⟨{ c with dpc := DPC.dclear }, ?_⟩
        simp only [wstep, state_loop_step, hd]
        rw [if_pos (h4 (Or.inr (Or.inr (Or.inl hd))))]
    all_goals
      simp only [wstep, state_loop_step, hd]
      exact ⟨_, rfl⟩
  · intro hne
    cases hf : c.fpc
    case fdone => exact absurd hf hne
    case fwait =>
        refine ⟨{ c with fpc := FPC.fclear }, ?_⟩
        simp only [wstep, rgb_loop_step, hf]
        rw [if_pos (h3 hf)]
    all_goals
      simp only [wstep, rgb_loop_step, hf]
      exact ⟨_, rfl⟩

/-- With record_on clear, worker steps preserve the guarantee that a camera
thread sitting at tick_evt.wait() has its tick set: the only consumer of
the tick leaves that location, and re-entering it requires record_on. -/
theorem fwait_tick_wstep (l : WLab) (c c' : Conf) (h : wstep l c = some c')
    (hrec : c.record_on = false) (htk : c.fpc = FPC.fwait → c.tick_evt = true) :
    c'.fpc = FPC.fwait → c'.tick_evt = true := by
  cases l with
  | dlab =>
      cases hd : c.dpc
      all_goals simp only [wstep, state_loop_step, hd] at h
      all_goals
        first
        | (have hc := Option.some.inj h
           subst hc
           first
           | exact htk
           | exact fun _ => rfl
           | (split <;> exact htk))
        | (split at h <;>
            first
            | exact Option.noConfusion h
            | (have hc := Option.some.inj h
               subst hc
               exact htk))
        | exact Option.noConfusion h
  | flab ok =>
      cases hf : c.fpc
      all_goals simp only [wstep, rgb_loop_step, hf] at h
      case f0 =>
          have hc := Option.some.inj h
          subst hc
          split <;> intro hx <;> exact absurd hx (by simp)
      case frec =>
          rw [if_neg (by simp [hrec])] at h
          have hc := Option.some.inj h
          subst hc
          intro hx
          exact absurd hx (by simp)
      case fwait =>
          split at h
          · have hc := Option.some.inj h
            subst hc
            intro hx
            exact absurd hx (by simp)
          · exact Option.noConfusion h
      case fclear =>
          have hc := Option.some.inj h
          subst hc
          intro hx
          exact absurd hx (by simp)
      case facq =>
          rw [if_pos (by simp [hrec])] at h
          have hc := Option.some.inj h
          subst hc
          intro hx
          exact absurd hx (by simp)
      case fcap =>
          have hc := Option.some.inj h
          subst hc
          split <;> intro hx <;> exact absurd hx (by simp)
      case fapp =>
          have hc := Option.some.inj h
          subst hc
          intro hx
          exact absurd hx (by simp)
      case fack =>
          have hc := Option.some.inj h
          subst hc
          intro hx
          exact absurd hx (by simp)
      case fdone => exact Option.noConfusion h

/-- Invariant of the q branch interleaved with the workers: the remaining
queue of quit actions determines which guarantees already hold. -/
def quitInv (s : SConf) : Prop :=
  s.2 = quitActs ∨
  (s.2 = [CAct.quit_set, CAct.tick_set, CAct.cam_set] ∧ s.1.record_on = false) ∨
  (s.2 = [CAct.tick_set, CAct.cam_set] ∧ s.1.record_on = false ∧ s.1.quit_on = true) ∨
  (s.2 = [CAct.cam_set] ∧ s.1.record_on = false ∧ s.1.quit_on = true ∧
    (s.1.fpc = FPC.fwait → s.1.tick_evt = true)) ∨
  (s.2 = [] ∧ postQuit s.1)

theorem quitInv_step (s s' : SConf) (h : SStepRel s s') (hI : quitInv s) : quitInv s' := by
  obtain ⟨l, hl⟩ := h
  obtain ⟨c, q⟩ := s
  cases l with
  | w wl =>
      simp only [sstep, Option.map_eq_some'] at hl
      obtain ⟨c', hw, hs'⟩ := hl
      subst hs'
      rcases hI with hq | ⟨hq, h1⟩ | ⟨hq, h1, h2⟩ | ⟨hq, h1, h2, h3⟩ | ⟨hq, hP⟩ <;> subst hq
      · exact Or.inl rfl
      · exact Or.inr (Or.inl ⟨rfl, (wstep_flags wl c c' hw).1.trans h1⟩)
      · exact Or.inr (Or.inr (Or.inl ⟨rfl, (wstep_flags wl c c' hw).1.trans h1,
          (wstep_flags wl c c' hw).2.trans h2⟩))
      · exact Or.inr (Or.inr (Or.inr (Or.inl ⟨rfl, (wstep_flags wl c c' hw).1.trans h1,
          (wstep_flags wl c c' hw).2.trans h2, fwait_tick_wstep wl c c' hw h1 h3⟩)))
      · exact Or.inr (Or.inr (Or.inr (Or.inr ⟨rfl, postQuit_wstep wl c c' hw hP⟩)))
  | pop =>
      rcases hI with hq | ⟨hq, h1⟩ | ⟨hq, h1, h2⟩ | ⟨hq, h1, h2, h3⟩ | ⟨hq, hP⟩ <;> subst hq
      · simp only [quitActs, sstep, Option.some.injEq] at hl
        subst hl
        exact Or.inr (Or.inl ⟨rfl, rfl⟩)
      · simp only [sstep, Option.some.injEq] at hl
        subst hl
        exact Or.inr (Or.inr (Or.inl ⟨rfl, h1, rfl⟩))
      · simp only [sstep, Option.some.injEq] at hl
        subst hl
        exact Or.inr (Or.inr (Or.inr (Or.inl ⟨rfl, h1, h2, fun _ => rfl⟩)))
      · simp only [sstep, Option.some.injEq] at hl
        subst hl
        exact Or.inr (Or.inr (Or.inr (Or.inr ⟨rfl, h2, h1, h3, fun _ => rfl⟩)))
      · simp only [sstep] at hl
        exact absurd hl (by simp)

theorem quitInv_reach (c0 : Conf) (s : SConf)
    (hr : RStar SStepRel (c0, quitActs) s) : quitInv s := by
  induction hr with
  | refl => exact Or.inl rfl
  | tail _ hbc ih => exact quitInv_step _ _ hbc ih

/-- Worker-only step relation, used once the main thread has finished the
quit writes and sits in the two joins. -/
def WStepRel (a b : Conf) : Prop := ∃ l, wstep l a = some b

inductive WChain : ℕ → Conf → Conf → Prop where
  | zero (c : Conf) : WChain 0 c c
  | succ {n : ℕ} {a b c : Conf} (l : WLab) (h : wstep l a = some b)
      (hc : WChain n b c) : WChain (n + 1) a c

def runW : List WLab → Conf → Option Conf
  | [], c => some c
  | l :: ls, c =>
      match wstep l c with
      | none => none
      | some c' => runW ls c'

theorem rstar_of_runW {ls : List WLab} {a b : Conf} (h : runW ls a = some b) :
    RStar WStepRel a b := by
  induction ls generalizing a with
  | nil =>
      simp only [runW, Option.some.injEq] at h
      exact h ▸ RStar.refl a
  | cons l ls ih =>
      simp only [runW] at h
      cases hs : wstep l a with
      | none => rw [hs] at h; exact absurd h (by simp)
      | some m =>
          rw [hs] at h
          exact rstar_head ⟨l, hs⟩ (ih h)

theorem wchain_of_runW {ls : List WLab} {a b : Conf} (h : runW ls a = some b) :
    WChain ls.length a b := by
  induction ls generalizing a with
  | nil =>
      simp only [runW, Option.some.injEq] at h
      exact h ▸ WChain.zero a
  | cons l ls ih =>
      simp only [runW] at h
      cases hs : wstep l a with
      | none => rw [hs] at h; exact absurd h (by simp)
      | some m =>
          rw [hs] at h
          exact WChain.succ l hs (ih h)

theorem postQuit_wreach (a b : Conf) (h : RStar WStepRel a b) (hP : postQuit a) :
    postQuit b := by
  induction h with
  | refl => exact hP
  | tail _ hbc ih =>
      obtain ⟨l, hl⟩ := hbc
      exact postQuit_wstep l _ _ hl ih

theorem wchain_le (n : ℕ) (a b : Conf) (h : WChain n a b) (hP : postQuit a) :
    n ≤ wMeasure a := by
  induction h with
  | zero => omega
  | succ l hs hc ih =>
      have hdec := postQuit_decrease l _ _ hs hP
      have := ih (postQuit_wstep l _ _ hs hP)
      omega

/-- C3: once the q branch has executed all four writes (clear record_on,
set quit_on, force-set tick_evt and cam_done), interleaved in any way with
the two worker loops and starting from any configuration, the system can
only drain: every maximal worker execution ends with both loops exited
(so the two joins in main return), and no worker execution takes more than
14 steps; this covers the driver blocked at cam_done.wait(), the camera
thread blocked at tick_evt.wait(), and a camera thread stuck in the frame
retry loop with a permanently failing camera. -/
theorem c3_quit_terminates (c0 : Conf) (s : SConf)
    (hr : RStar SStepRel (c0, quitActs) s) (hq : s.2 = []) :
    (∀ b, RStar WStepRel s.1 b →
      (∀ l c', ¬ wstep l b = some c') → b.dpc = DPC.ddone ∧ b.fpc = FPC.fdone) ∧
    (∀ n b, WChain n s.1 b → n ≤ 14) := by
  have hinv := quitInv_reach c0 s hr
  have hpq : postQuit s.1 := by
    rcases hinv with hq2 | ⟨hq2, _⟩ | ⟨hq2, _⟩ | ⟨hq2, _⟩ | ⟨_, hP⟩
    · rw [hq] at hq2; exact absurd hq2.symm (by simp [quitActs])
    · rw [hq] at hq2; exact absurd hq2.symm (by simp)
    · rw [hq] at hq2; exact absurd hq2.symm (by simp)
    · rw [hq] at hq2; exact absurd hq2.symm (by simp)
    · exact hP
  constructor
  · intro b hb hmax
    have hpb := postQuit_wreach s.1 b hb hpq
    constructor
    · by_contra hne
      obtain ⟨c', hc'⟩ := (postQuit_progress b hpb).1 hne
      exact hmax _ _ hc'
    · by_contra hne
      obtain ⟨c', hc'⟩ := (postQuit_progress b hpb).2 hne
      exact hmax _ _ hc'
  · intro n b hc
    have h1 := wchain_le n s.1 b hc hpq
    have h2 := wMeasure_le s.1
    omega

/-- A doubly blocked configuration: the driver is parked at cam_done.wait()
with an unacknowledged shot, the camera thread at tick_evt.wait(). -/
def c3c0 : Conf :=
  { record_on := true, quit_on := false, tick_evt := false, cam_done := false,
    stateLen := 1, rgbLen := 0, dpc := DPC.dwait, fpc := FPC.fwait,
    ticksConsumed := 1, framesAppended := 0, acksSet := 0, abandons := 0 }

def c3final : SConf :=
  (runS [SLab.pop, SLab.pop, SLab.pop, SLab.pop] (c3c0, quitActs)).getD (c3c0, [])

def c3wlabels : List WLab :=
  [WLab.dlab, WLab.dlab, WLab.dlab,
   WLab.flab true, WLab.flab true, WLab.flab true, WLab.flab true]

def c3b : Conf := (runW c3wlabels c3final.1).getD c3c0

theorem c3_quit_terminates_witness :
    c3final.2 = [] ∧ c3b.dpc = DPC.ddone ∧ c3b.fpc = FPC.fdone ∧ (7 : ℕ) ≤ 14 := by
  have hrun : runS [SLab.pop, SLab.pop, SLab.pop, SLab.pop] (c3c0, quitActs) =
      some c3final := by decide
  have hw : runW c3wlabels c3final.1 = some c3b := by decide
  have h := c3_quit_terminates c3c0 c3final (rstar_of_runS hrun) (by decide)
  have hmax : ∀ l c', ¬ wstep l c3b = some c' := by
    intro l c' hx
    cases l with
    | dlab =>
        rw [show wstep WLab.dlab c3b = none from by decide] at hx
        exact Option.noConfusion hx
    | flab ok =>
        cases ok with
        | true =>
            rw [show wstep (WLab.flab true) c3b = none from by decide] at hx
            exact Option.noConfusion hx
        | false =>
            rw [show wstep (WLab.flab false) c3b = none from by decide] at hx
            exact Option.noConfusion hx
  have hchain : WChain 7 c3final.1 c3b := wchain_of_runW hw
  have hb := h.1 c3b (rstar_of_runW hw) hmax
  exact ⟨by decide, hb.1, hb.2, h.2 7 c3b hchain⟩

/-! ### Ledger of the camera thread: ticks consumed, frames appended, acks -/

/-- Label of a step in the open system: a worker step, or any single
main-thread write at any time (covering every command interleaving). -/
inductive GLab : Type where
  | gw (l : WLab)
  | gact (a : CAct)
deriving DecidableEq, Repr

def gstep : GLab → Conf → Option Conf
  | GLab.gw l, c => wstep l c
  | GLab.gact a, c => some (cact a c)

def GStepRel (a b : Conf) : Prop := ∃ l, gstep l a = some b

/-- The configuration at process start: flags and events clear, buffers
empty, both loops at their top. -/
def init0 : Conf :=
  { record_on := false, quit_on := false, tick_evt := false, cam_done := false,
    stateLen := 0, rgbLen := 0, dpc := DPC.d0, fpc := FPC.f0,
    ticksConsumed := 0, framesAppended := 0, acksSet := 0, abandons := 0 }

def runG : List GLab → Conf → Option Conf
  | [], c => some c
  | l :: ls, c =>
      match gstep l c with
      | none => none
      | some c' => runG ls c'

theorem rstar_of_runG {ls : List GLab} {a b : Conf} (h : runG ls a = some b) :
    RStar GStepRel a b := by
  induction ls generalizing a with
  | nil =>
      simp only [runG, Option.some.injEq] at h
      exact h ▸ RStar.refl a
  | cons l ls ih =>
      simp only [runG] at h
      cases hs : gstep l a with
      | none => rw [hs] at h; exact absurd h (by simp)
      | some m =>
          rw [hs] at h
          exact rstar_head ⟨l, hs⟩ (ih h)

/-- Exact bookkeeping of one camera-loop cycle: every consumed tick is
either an appended frame, an abandoned acquisition, or the one cycle still
in flight; and every cam_done.set() of the camera thread follows its
append, with at most the one pending at location fack. -/
def followerLedger (c : Conf) : Prop :=
  c.ticksConsumed = c.framesAppended + c.abandons + midFN c.fpc ∧
  c.acksSet + fAckN c.fpc = c.framesAppended

theorem followerLedger_gstep (l : GLab) (c c' : Conf) (h : gstep l c = some c')
    (hL : followerLedger c) : followerLedger c' := by
  obtain ⟨h1, h2⟩ := hL
  cases l with
  | gact a =>
      have hc := Option.some.inj h
      subst hc
      cases a <;> exact ⟨h1, h2⟩
  | gw wl =>
      cases wl with
      | dlab =>
          cases hd : c.dpc
          all_goals simp only [gstep, wstep, state_loop_step, hd] at h
          all_goals
            first
            | (have hc := Option.some.inj h
               subst hc
               first
               | exact ⟨h1, h2⟩
               | (split <;> exact ⟨h1, h2⟩))
            | (split at h <;>
                first
                | exact Option.noConfusion h
                | (have hc := Option.some.inj h
                   subst hc
                   exact ⟨h1, h2⟩))
            | exact Option.noConfusion h
      | flab ok =>
          cases hf : c.fpc
          all_goals rw [hf] at h1 h2
          all_goals simp only [gstep, wstep, rgb_loop_step, hf] at h
          case f0 =>
              have hc := Option.some.inj h
              subst hc
              split <;> constructor <;>
                simp only [midFN, fAckN] at h1 h2 ⊢ <;> omega
          case frec =>
              have hc := Option.some.inj h
              subst hc
              split <;> constructor <;>
                simp only [midFN, fAckN] at h1 h2 ⊢ <;> omega
          case fwait =>
              split at h
              · have hc := Option.some.inj h
                subst hc
                constructor <;> simp only [midFN, fAckN] at h1 h2 ⊢ <;> omega
              · exact Option.noConfusion h
          case fclear =>
              have hc := Option.some.inj h
              subst hc
              constructor <;> simp only [midFN, fAckN] at h1 h2 ⊢ <;> omega
          case facq =>
              have hc := Option.some.inj h
              subst hc
              split <;> constructor <;>
                simp only [midFN, fAckN] at h1 h2 ⊢ <;> omega
          case fcap =>
              have hc := Option.some.inj h
              subst hc
              split <;> constructor <;>
                simp only [midFN, fAckN] at h1 h2 ⊢ <;> omega
          case fapp =>
              have hc := Option.some.inj h
              subst hc
              constructor <;> simp only [midFN, fAckN] at h1 h2 ⊢ <;> omega
          case fack =>
              have hc := Option.some.inj h
              subst hc
              constructor <;> simp only [midFN, fAckN] at h1 h2 ⊢ <;> omega
          case fdone => exact Option.noConfusion h

theorem followerLedger_reach (s : Conf) (h : RStar GStepRel init0 s) :
    followerLedger s := by
  induction h with
  | refl => exact ⟨rfl, rfl⟩
  | tail _ hbc ih =>
      obtain ⟨l, hl⟩ := hbc
      exact followerLedger_gstep l _ _ hl ih

theorem state_step_acks (c c' : Conf) (h : state_loop_step c = some c') :
    c'.acksSet = c.acksSet := by
  cases hd : c.dpc
  all_goals simp only [state_loop_step, hd] at h
  all_goals
    first
    | (have hc := Option.some.inj h
       subst hc
       first
       | rfl
       | (split <;> rfl))
    | (split at h <;>
        first
        | exact Option.noConfusion h
        | (have hc := Option.some.inj h
           subst hc
           rfl))
    | exact Option.noConfusion h

theorem rgb_step_acks (ok : Bool) (c c' : Conf) (h : rgb_loop_step ok c = some c')
    (hne : c.fpc ≠ FPC.fack) : c'.acksSet = c.acksSet := by
  cases hf : c.fpc
  case fack => exact absurd hf hne
  all_goals simp only [rgb_loop_step, hf] at h
  all_goals
    first
    | (have hc := Option.some.inj h
       subst hc
       first
       | rfl
       | (split <;> rfl))
    | (split at h <;>
        first
        | exact Option.noConfusion h
        | (have hc := Option.some.inj h
           subst hc
           rfl))
    | exact Option.noConfusion h

/-- The beginning of a shot that the camera thread abandons: the driver has
broadcast the tick and appended its sample, the camera thread has consumed
the tick and entered the retry loop; then the q branch runs and the camera
thread exits the retry loop without a frame. -/
def c6labels : List SLab :=
  [SLab.w WLab.dlab, SLab.w WLab.dlab, SLab.w WLab.dlab, SLab.w WLab.dlab,
   SLab.w (WLab.flab true), SLab.w (WLab.flab true), SLab.w (WLab.flab true),
   SLab.w (WLab.flab true),
   SLab.pop, SLab.pop, SLab.pop, SLab.pop,
   SLab.w (WLab.flab true)]

def c6final : SConf := (runS c6labels (c1c0, quitActs)).getD (c1c0, [])

/-- C6 counterexample: an execution of the recorder in which the camera
thread consumes one tick and appends no frame, because quit is issued while
it is still acquiring.  The number of frames it appends is therefore not
equal to the number of tick signals it consumed, refuting the claim for
executions with an abandoned acquisition. -/
theorem c6_abandoned_tick_counterexample :
    runS c6labels (c1c0, quitActs) = some c6final ∧
    c6final.1.ticksConsumed = 1 ∧ c6final.1.framesAppended = 0 ∧
    ¬ c6final.1.framesAppended = c6final.1.ticksConsumed := by decide

/-- C6 (amended): in every execution, the camera thread appends at most as
many frames as the ticks it has consumed, and exactly: consumed ticks =
appended frames + abandoned acquisitions + the one acquisition still in
flight.  Equality with the consumed-tick count holds exactly when no
acquisition was abandoned and none is in flight. -/
theorem c6_frames_vs_ticks (s : Conf) (h : RStar GStepRel init0 s) :
    s.framesAppended + s.abandons + midFN s.fpc = s.ticksConsumed ∧
    s.framesAppended ≤ s.ticksConsumed := by
  obtain ⟨h1, h2⟩ := followerLedger_reach s h
  have hm := midFN_le s.fpc
  exact ⟨h1.symm, by omega⟩

def c6wlabels : List GLab :=
  [GLab.gact CAct.record_set,
   GLab.gw WLab.dlab, GLab.gw WLab.dlab, GLab.gw WLab.dlab, GLab.gw WLab.dlab,
   GLab.gw (WLab.flab true), GLab.gw (WLab.flab true), GLab.gw (WLab.flab true),
   GLab.gw (WLab.flab true), GLab.gw (WLab.flab true), GLab.gw (WLab.flab true),
   GLab.gw (WLab.flab true), GLab.gw (WLab.flab true)]

def c6wc : Conf := (runG c6wlabels init0).getD init0

theorem c6_frames_vs_ticks_witness :
    c6wc.framesAppended + c6wc.abandons + midFN c6wc.fpc = c6wc.ticksConsumed ∧
    c6wc.framesAppended ≤ c6wc.ticksConsumed := by
  have hrun : runG c6wlabels init0 = some c6wc := by decide
  exact c6_frames_vs_ticks c6wc (rstar_of_runG hrun)

/-- C7: the camera thread sets the completion event only after its frame
append: (1) in every reachable configuration its cam_done.set() count plus
the one possibly pending at location fack equals its append count; (2) an
abandoned acquisition (exit of the retry loop back to the outer loop with
no frame) changes neither buffer, counters, nor cam_done; (3) a worker step
that increments the ack counter can only fire from the location directly
after the append. -/
theorem c7_ack_only_after_append :
    (∀ s, RStar GStepRel init0 s → s.acksSet + fAckN s.fpc = s.framesAppended) ∧
    (∀ (c c' : Conf) (ok : Bool), gstep (GLab.gw (WLab.flab ok)) c = some c' →
      c.fpc = FPC.facq → c'.fpc = FPC.f0 →
      c'.rgbLen = c.rgbLen ∧ c'.framesAppended = c.framesAppended ∧
      c'.acksSet = c.acksSet ∧ c'.cam_done = c.cam_done) ∧
    (∀ (c c' : Conf) (l : WLab), wstep l c = some c' →
      c'.acksSet = c.acksSet + 1 → c.fpc = FPC.fack) := by
  refine ⟨?_, ?_, ?_⟩
  · intro s h
    exact (followerLedger_reach s h).2
  · intro c c' ok h hfa hf0
    simp only [gstep, wstep, rgb_loop_step, hfa] at h
    split at h
    · have hc := Option.some.inj h
      subst hc
      exact ⟨rfl, rfl, rfl, rfl⟩
    · have hc := Option.some.inj h
      subst hc
      exact absurd hf0 (by simp)
  · intro c c' l h hinc
    cases l with
    | dlab =>
        have := state_step_acks c c' h
        omega
    | flab ok =>
        by_cases hf : c.fpc = FPC.fack
        · exact hf
        · have := rgb_step_acks ok c c' h hf
          omega

def c7ca : Conf := { init0 with fpc := FPC.facq, quit_on := true }

def c7cb : Conf := { init0 with fpc := FPC.f0, quit_on := true, abandons := 1 }

def c7cc : Conf :=
  { init0 with
    fpc := FPC.fack
    record_on := true
    rgbLen := 1
    framesAppended := 1
    ticksConsumed := 1 }

def c7cd : Conf := { c7cc with fpc := FPC.f0, cam_done := true, acksSet := 1 }

theorem c7_ack_only_after_append_witness :
    (init0.acksSet + fAckN init0.fpc = init0.framesAppended) ∧
    (c7cb.rgbLen = c7ca.rgbLen ∧ c7cb.framesAppended = c7ca.framesAppended ∧
      c7cb.acksSet = c7ca.acksSet ∧ c7cb.cam_done = c7ca.cam_done) ∧
    c7cc.fpc = FPC.fack := by
  have h := c7_ack_only_after_append
  exact ⟨h.1 init0 (RStar.refl init0),
    h.2.1 c7ca c7cb true (by decide) (by decide) (by decide),
    h.2.2 c7cc c7cd (WLab.flab true) (by decide) (by decide)⟩

/-! ### The b branch from parked workers -/

/-- Both workers idle at their flag checks with recording off and no quit:
the state of the loops after a previous session has fully wound down. -/
def parked (c : Conf) : Prop :=
  c.record_on = false ∧ c.quit_on = false ∧
  (c.dpc = DPC.d0 ∨ c.dpc = DPC.drec) ∧ (c.fpc = FPC.f0 ∨ c.fpc = FPC.frec)

instance (c : Conf) : Decidable (parked c) := by
  unfold parked
  infer_instance

/-- While both flags are down, parked workers stay parked and touch nothing
shared: no buffer, no event. -/
theorem parked_wstep (l : WLab) (c c' : Conf) (h : wstep l c = some c')
    (hp : parked c) : parked c' ∧ c'.stateLen = c.stateLen ∧ c'.rgbLen = c.rgbLen ∧
      c'.tick_evt = c.tick_evt ∧ c'.cam_done = c.cam_done := by
  obtain ⟨hrec, hquit, hd, hf⟩ := hp
  cases l with
  | dlab =>
      rcases hd with hd | hd
      · simp only [wstep, state_loop_step, hd] at h
        rw [if_neg (by simp [hquit])] at h
        have hc := Option.some.inj h
        subst hc
        exact ⟨⟨hrec, hquit, Or.inr rfl, hf⟩, rfl, rfl, rfl, rfl⟩
      · simp only [wstep, state_loop_step, hd] at h
        rw [if_neg (by simp [hrec])] at h
        have hc := Option.some.inj h
        subst hc
        exact ⟨⟨hrec, hquit, Or.inl rfl, hf⟩, rfl, rfl, rfl, rfl⟩
  | flab ok =>
      rcases hf with hf | hf
      · simp only [wstep, rgb_loop_step, hf] at h
        rw [if_neg (by simp [hquit])] at h
        have hc := Option.some.inj h
        subst hc
        exact ⟨⟨hrec, hquit, hd, Or.inr rfl⟩, rfl, rfl, rfl, rfl⟩
      · simp only [wstep, rgb_loop_step, hf] at h
        rw [if_neg (by simp [hrec])] at h
        have hc := Option.some.inj h
        subst hc
        exact ⟨⟨hrec, hquit, hd, Or.inl rfl⟩, rfl, rfl, rfl, rfl⟩

/-- Invariant of the b branch started from parked workers: each performed
write persists, because parked workers cannot wake before record_on is
set and the flag write is last. -/
def startInv (s : SConf) : Prop :=
  (s.2 = startActs ∧ parked s.1) ∨
  (s.2 = [CAct.tick_clear, CAct.cam_clear, CAct.record_set] ∧ parked s.1 ∧
    s.1.stateLen = 0 ∧ s.1.rgbLen = 0) ∨
  (s.2 = [CAct.cam_clear, CAct.record_set] ∧ parked s.1 ∧
    s.1.stateLen = 0 ∧ s.1.rgbLen = 0 ∧ s.1.tick_evt = false) ∨
  (s.2 = [CAct.record_set] ∧ parked s.1 ∧
    s.1.stateLen = 0 ∧ s.1.rgbLen = 0 ∧ s.1.tick_evt = false ∧ s.1.cam_done = false) ∨
  s.2 = []

theorem startInv_step (s s' : SConf) (h : SStepRel s s') (hI : startInv s) :
    startInv s' := by
  obtain ⟨l, hl⟩ := h
  obtain ⟨c, q⟩ := s
  cases l with
  | w wl =>
      simp only [sstep, Option.map_eq_some'] at hl
      obtain ⟨c', hw, hs'⟩ := hl
      subst hs'
      rcases hI with ⟨hq, h1⟩ | ⟨hq, h1, h2, h3⟩ | ⟨hq, h1, h2, h3, h4⟩ |
        ⟨hq, h1, h2, h3, h4, h5⟩ | hq <;> subst hq
      · exact Or.inl ⟨rfl, (parked_wstep wl c c' hw h1).1⟩
      · obtain ⟨hp, e1, e2, _, _⟩ := parked_wstep wl c c' hw h1
        exact Or.inr (Or.inl ⟨rfl, hp, e1.trans h2, e2.trans h3⟩)
      · obtain ⟨hp, e1, e2, e3, _⟩ := parked_wstep wl c c' hw h1
        exact Or.inr (Or.inr (Or.inl ⟨rfl, hp, e1.trans h2, e2.trans h3, e3.trans h4⟩))
      · obtain ⟨hp, e1, e2, e3, e4⟩ := parked_wstep wl c c' hw h1
        exact Or.inr (Or.inr (Or.inr (Or.inl
          ⟨rfl, hp, e1.trans h2, e2.trans h3, e3.trans h4, e4.trans h5⟩)))
      · exact Or.inr (Or.inr (Or.inr (Or.inr rfl)))
  | pop =>
      rcases hI with ⟨hq, h1⟩ | ⟨hq, h1, h2, h3⟩ | ⟨hq, h1, h2, h3, h4⟩ |
        ⟨hq, h1, h2, h3, h4, h5⟩ | hq <;> subst hq
      · simp only [startActs, sstep, Option.some.injEq] at hl
        subst hl
        exact Or.inr (Or.inl ⟨rfl, h1, rfl, rfl⟩)
      · simp only [sstep, Option.some.injEq] at hl
        subst hl
        exact Or.inr (Or.inr (Or.inl ⟨rfl, h1, h2, h3, rfl⟩))
      · simp only [sstep, Option.some.injEq] at hl
        subst hl
        exact Or.inr (Or.inr (Or.inr (Or.inl ⟨rfl, h1, h2, h3, h4, rfl⟩)))
      · simp only [sstep, Option.some.injEq] at hl
        subst hl
        exact Or.inr (Or.inr (Or.inr (Or.inr rfl)))
      · simp only [sstep] at hl
        exact absurd hl (by simp)

/-- C8 (amended): the b branch clears the buffers under the lock and clears
both events strictly before it sets record_on (this is the order of
startActs, read off the source); consequently, when the command is issued
while both workers are parked idle, at the instant record_on is about to be
set the buffers are still empty and both events still clear, and the state
immediately after the flag write has record_on set with empty buffers and
clear events.  (Without the parked assumption this fails: see the
counterexample, where a camera acquisition still in flight from the
previous session appends a stale frame after the flag is set.) -/
theorem c8_start_reset (c0 : Conf) (s : SConf)
    (hq0 : parked c0) (hr : RStar SStepRel (c0, startActs) s) :
    (s.2 = [CAct.record_set] → s.1.record_on = false ∧ s.1.stateLen = 0 ∧
      s.1.rgbLen = 0 ∧ s.1.tick_evt = false ∧ s.1.cam_done = false) ∧
    (∀ s', s.2 = [CAct.record_set] → sstep SLab.pop s = some s' →
      s'.1.record_on = true ∧ s'.1.stateLen = 0 ∧ s'.1.rgbLen = 0 ∧
      s'.1.tick_evt = false ∧ s'.1.cam_done = false) := by
  have hinv : startInv s := by
    induction hr with
    | refl => exact Or.inl ⟨rfl, hq0⟩
    | tail _ hbc ih => exact startInv_step _ _ hbc ih
  have hkey : s.2 = [CAct.record_set] → s.1.record_on = false ∧ s.1.stateLen = 0 ∧
      s.1.rgbLen = 0 ∧ s.1.tick_evt = false ∧ s.1.cam_done = false := by
    intro hq
    rcases hinv with ⟨hq2, _⟩ | ⟨hq2, _⟩ | ⟨hq2, _⟩ | ⟨_, h1, h2, h3, h4, h5⟩ | hq2
    · rw [hq] at hq2; exact absurd hq2 (by simp [startActs])
    · rw [hq] at hq2; exact absurd hq2 (by simp)
    · rw [hq] at hq2; exact absurd hq2 (by simp)
    · exact ⟨h1.1, h2, h3, h4, h5⟩
    · rw [hq] at hq2; exact absurd hq2 (by simp)
  refine ⟨hkey, ?_⟩
  intro s' hq hpop
  obtain ⟨c, q⟩ := s
  obtain ⟨h1, h2, h3, h4, h5⟩ := hkey hq
  simp only at hq
  subst hq
  simp only [sstep, Option.some.injEq] at hpop
  subst hpop
  exact ⟨rfl, h2, h3, h4, h5⟩

/-- A parked configuration with stale leftovers from a previous session. -/
def c8wc0 : Conf :=
  { record_on := false, quit_on := false, tick_evt := true, cam_done := true,
    stateLen := 3, rgbLen := 2, dpc := DPC.d0, fpc := FPC.frec,
    ticksConsumed := 3, framesAppended := 2, acksSet := 2, abandons := 1 }

def c8wfinal : SConf :=
  (runS [SLab.pop, SLab.w WLab.dlab, SLab.pop, SLab.w (WLab.flab true), SLab.pop]
    (c8wc0, startActs)).getD (c8wc0, [])

theorem c8_start_reset_witness :
    parked c8wc0 ∧
    (c8wfinal.1.record_on = false ∧ c8wfinal.1.stateLen = 0 ∧ c8wfinal.1.rgbLen = 0 ∧
      c8wfinal.1.tick_evt = false ∧ c8wfinal.1.cam_done = false) ∧
    ((cact CAct.record_set c8wfinal.1, ([] : List CAct)).1.record_on = true ∧
      (cact CAct.record_set c8wfinal.1, ([] : List CAct)).1.stateLen = 0 ∧
      (cact CAct.record_set c8wfinal.1, ([] : List CAct)).1.rgbLen = 0 ∧
      (cact CAct.record_set c8wfinal.1, ([] : List CAct)).1.tick_evt = false ∧
      (cact CAct.record_set c8wfinal.1, ([] : List CAct)).1.cam_done = false) := by
  have hrun : runS [SLab.pop, SLab.w WLab.dlab, SLab.pop, SLab.w (WLab.flab true), SLab.pop]
      (c8wc0, startActs) = some c8wfinal := by decide
  have h := c8_start_reset c8wc0 c8wfinal (by decide) (rstar_of_runS hrun)
  exact ⟨by decide, h.1 (by decide), h.2 (cact CAct.record_set c8wfinal.1, [])
    (by decide) (by decide)⟩

/-- The race of the b branch with a camera acquisition still in flight: the
previous session ends with the n branch while the camera thread sits inside
pipeline.wait_for_frames; the user immediately starts a new session; the
old acquisition then returns a frame, which is appended into the fresh
buffers, and cam_done is set — after record_on was set. -/
def c8labels : List SLab :=
  [SLab.w WLab.dlab, SLab.w WLab.dlab, SLab.w WLab.dlab, SLab.w WLab.dlab,
   SLab.w (WLab.flab true), SLab.w (WLab.flab true), SLab.w (WLab.flab true),
   SLab.w (WLab.flab true), SLab.w (WLab.flab true),
   SLab.pop, SLab.pop, SLab.pop,
   SLab.w WLab.dlab, SLab.w WLab.dlab,
   SLab.pop,
   SLab.pop, SLab.pop, SLab.pop, SLab.pop,
   SLab.w (WLab.flab true), SLab.w (WLab.flab true), SLab.w (WLab.flab true)]

def c8final : SConf := (runS c8labels (c1c0, saveActs ++ startActs)).getD (c1c0, [])

/-- C8 counterexample: with the n branch and then the b branch fully
executed (the real save-then-start command sequence) while the camera
thread is mid-acquisition, the system reaches a state with record_on set,
the state buffer empty but the frame buffer holding one stale frame from
the previous session, and cam_done set although no tick of the new session
has occurred; so the workers can observe the recording flag set with a
stale non-empty buffer and a stale signal, despite the reset-before-flag
order inside the b branch. -/
theorem c8_stale_frame_counterexample :
    runS c8labels (c1c0, saveActs ++ startActs) = some c8final ∧
    c8final.2 = [] ∧
    c8final.1.record_on = true ∧
    c8final.1.stateLen = 0 ∧
    c8final.1.rgbLen = 1 ∧
    c8final.1.cam_done = true ∧
    c8final.1.tick_evt = false := by decide

/-! ### Claims about the scheduler, the trim, and the command dispatch -/

theorem schedDeadlines_some_congr (P t : ℚ) (ns ns' : List ℚ)
    (h : ns.length = ns'.length) :
    schedDeadlines P (some t) ns = schedDeadlines P (some t) ns' := by
  induction ns generalizing t ns' with
  | nil =>
      cases ns' with
      | nil => rfl
      | cons b m => simp at h
  | cons a l ih =>
      cases ns' with
      | nil => simp at h
      | cons b m =>
          simp only [List.length_cons, Nat.add_right_cancel_iff] at h
          simp only [schedDeadlines, schedTick]
          rw [ih (t + P) m h]

/-- C2: the driver schedule is drift free.  For any run of consecutive
recording iterations: the first deadline is the first wake time plus P; each
later deadline is exactly the previous deadline plus P; the whole deadline
sequence is independent of the wake jitter (it depends only on the first
wake time and the number of iterations); and the idle branch discards the
stored deadline, so the first shot after recording resumes gets a fresh
deadline now + P. -/
theorem c2_drift_free_schedule (P now0 : ℚ) (nows nows' : List ℚ) (i : ℕ)
    (nt : Option ℚ) :
    (schedDeadlines P none (now0 :: nows)).head? = some (now0 + P) ∧
    (i + 1 < nows.length + 1 →
      (schedDeadlines P none (now0 :: nows))[i + 1]? =
        ((schedDeadlines P none (now0 :: nows))[i]?).map (fun d => d + P)) ∧
    (nows.length = nows'.length →
      schedDeadlines P none (now0 :: nows) = schedDeadlines P none (now0 :: nows')) ∧
    schedIdle nt = none ∧
    (schedTick P (schedIdle nt) now0).deadline = now0 + P := by
  refine ⟨by simp [schedDeadlines, schedTick], ?_, ?_, rfl, rfl⟩
  · intro hi
    have hi' : i < nows.length := by omega
    simp only [schedDeadlines, schedTick]
    rw [List.getElem?_cons_succ, schedDeadlines_some P (now0 + P + P) nows i hi']
    cases i with
    | zero =>
        rw [List.getElem?_cons_zero]
        simp only [Option.map_some']
        congr 1
        push_cast
        ring
    | succ j =>
        have hj : j < nows.length := by omega
        rw [List.getElem?_cons_succ, schedDeadlines_some P (now0 + P + P) nows j hj]
        simp only [Option.map_some']
        congr 1
        push_cast
        ring
  · intro h
    simp only [schedDeadlines, schedTick]
    rw [schedDeadlines_some_congr P (now0 + P + P) nows nows' h]

theorem c2_drift_free_schedule_witness :
    (schedDeadlines 1 none (10 :: [12, 13])).head? = some (10 + 1) ∧
    (schedDeadlines 1 none (10 :: [12, 13]))[0 + 1]? =
      ((schedDeadlines 1 none (10 :: [12, 13]))[0]?).map (fun d => d + 1) ∧
    schedDeadlines 1 none (10 :: [12, 13]) = schedDeadlines 1 none (10 :: [100, 200]) ∧
    schedIdle (some 5) = none ∧
    (schedTick 1 (schedIdle (some 5)) 10).deadline = 10 + 1 := by
  have h := c2_drift_free_schedule 1 10 [12, 13] [100, 200] 0 (some 5)
  exact ⟨h.1, h.2.1 (by norm_num), h.2.2.1 rfl, h.2.2.2.1, h.2.2.2.2⟩

/-- C9 counterexample: at P = 1, stored deadline 5, wake time 7 (a late
wake), the iteration sleeps 0 and schedules 6 = 5 + 1, but its only output
is the unconditional time_1 trace: the loop body has no overrun report, so
the reporting part of the claim is false on this input. -/
theorem c9_no_overrun_report_counterexample :
    (schedTick 1 (some 5) 7).sleepFor = 0 ∧
    (schedTick 1 (some 5) 7).next = some (5 + 1) ∧
    (schedTick 1 (some 5) 7).logs = [LogEntry.time1 7] ∧
    hasOverrunReport (schedTick 1 (some 5) 7) = false := by
  refine ⟨?_, by norm_num [schedTick], rfl, rfl⟩
  simp only [schedTick]
  norm_num

/-- C9 (amended): when the driver wakes at or after the current deadline it
does not resynchronize to now: it sleeps 0 (proceeds immediately) and the
next deadline is the missed deadline plus P; however no overrun is
reported — the only output of the iteration is the unconditional time_1
trace. -/
theorem c9_late_wake (P d now : ℚ) (h : d ≤ now) :
    (schedTick P (some d) now).sleepFor = 0 ∧
    (schedTick P (some d) now).next = some (d + P) ∧
    (schedTick P (some d) now).logs = [LogEntry.time1 now] ∧
    hasOverrunReport (schedTick P (some d) now) = false := by
  refine ⟨?_, rfl, rfl, rfl⟩
  simp only [schedTick]
  rw [if_neg (not_lt.mpr h)]

theorem c9_late_wake_witness :
    (5 : ℚ) ≤ 7 ∧ (schedTick 1 (some 5) 7).sleepFor = 0 ∧
    (schedTick 1 (some 5) 7).next = some (5 + 1) ∧
    hasOverrunReport (schedTick 1 (some 5) 7) = false := by
  have h := c9_late_wake 1 5 7 (by norm_num)
  exact ⟨by norm_num, h.1, h.2.1, h.2.2.2⟩

/-- The color conversion applied to the frame snapshot before the trim.
Modelled from the spec: piper_dev.utils.bgrs_to_rgbs is a per-frame,
infallible channel-order conversion (one output frame per input frame);
the module itself is not among the sources. -/
def bgrs_to_rgbs {β γ : Type} (frame_to_rgb : β → γ) (rgb : List β) : List γ :=
  rgb.map frame_to_rgb

theorem trimToSave_spec {α β : Type} (ss : List α) (rs : List β) :
    (trimToSave ss rs).1 = ss.take (min ss.length rs.length) ∧
    (trimToSave ss rs).2.1 = rs.take (min ss.length rs.length) ∧
    ((trimToSave ss rs).2.2 = true ↔ ¬ ss.length = rs.length) := by
  unfold trimToSave
  by_cases h : ss.length = rs.length
  · rw [if_neg (by simp [h])]
    have hm : min ss.length rs.length = ss.length := by omega
    have hm2 : min ss.length rs.length = rs.length := by omega
    refine ⟨?_, ?_, by simp [h]⟩
    · show ss = ss.take (min ss.length rs.length)
      rw [hm, List.take_length]
    · show rs = rs.take (min ss.length rs.length)
      rw [hm2, List.take_length]
  · rw [if_pos h]
    exact ⟨rfl, rfl, by simp [h]⟩

/-- C4: the save-time trim.  The conversion preserves the snapshot length;
the stored pair always has equal lengths, namely the minimum of the two
snapshot lengths; both stored sequences are prefixes (List.take) of the
snapshots, so nothing is ever padded; the trim is reported exactly when the
lengths differ; and when the lengths already match both sequences are
stored unchanged. -/
theorem c4_trim_on_save {α β γ : Type} (g : β → γ) (ss : List α) (rs : List β) :
    (bgrs_to_rgbs g rs).length = rs.length ∧
    (trimToSave ss (bgrs_to_rgbs g rs)).1.length =
      (trimToSave ss (bgrs_to_rgbs g rs)).2.1.length ∧
    (trimToSave ss (bgrs_to_rgbs g rs)).1.length = min ss.length rs.length ∧
    (trimToSave ss (bgrs_to_rgbs g rs)).1 = ss.take (min ss.length rs.length) ∧
    (trimToSave ss (bgrs_to_rgbs g rs)).2.1 =
      (bgrs_to_rgbs g rs).take (min ss.length rs.length) ∧
    ((trimToSave ss (bgrs_to_rgbs g rs)).2.2 = true ↔ ¬ ss.length = rs.length) ∧
    (ss.length = rs.length →
      (trimToSave ss (bgrs_to_rgbs g rs)).1 = ss ∧
      (trimToSave ss (bgrs_to_rgbs g rs)).2.1 = bgrs_to_rgbs g rs) := by
  have hlen : (bgrs_to_rgbs g rs).length = rs.length := by
    simp [bgrs_to_rgbs]
  obtain ⟨t1, t2, t3⟩ := trimToSave_spec ss (bgrs_to_rgbs g rs)
  rw [hlen] at t1 t2 t3
  refine ⟨hlen, ?_, ?_, t1, t2, t3, ?_⟩
  · rw [t1, t2]
    simp only [List.length_take, hlen]
    omega
  · rw [t1]
    simp only [List.length_take]
    omega
  · intro hx
    have hm : min ss.length rs.length = ss.length := by omega
    have hm2 : min ss.length rs.length = (bgrs_to_rgbs g rs).length := by
      rw [hlen]; omega
    constructor
    · rw [t1, hm, List.take_length]
    · rw [t2, hm2, List.take_length]

theorem c4_trim_on_save_witness :
    (bgrs_to_rgbs (fun x => x + 1) [4, 5]).length = ([4, 5] : List ℕ).length ∧
    (trimToSave [1, 2] (bgrs_to_rgbs (fun x => x + 1) [4, 5])).1 = [1, 2] ∧
    (trimToSave [1, 2] (bgrs_to_rgbs (fun x => x + 1) [4, 5])).2.1 =
      bgrs_to_rgbs (fun x => x + 1) [4, 5] := by
  have h := c4_trim_on_save (fun x => x + 1) [1, 2] ([4, 5] : List ℕ)
  have h2 := h.2.2.2.2.2.2 (by rfl)
  exact ⟨h.1, h2.1, h2.2⟩

/-- The state after an error-free n branch that snapshotted empty buffers:
flag cleared, both events set, buffers empty, demos[demo_idx] filled with
the two empty sequences, idx advanced. -/
def cmd_n_ok (c : CtrlSt) : CtrlSt :=
  { c with
    record_on := false
    tick_evt := true
    cam_done := true
    state := []
    rgb := []
    demos := assocSet c.idx (some ([], [])) c.demos
    idx := c.idx + 1 }

/-- C5 counterexample: the n hotkey pressed before any b: demos = {} holds
no key demo_0, so the store demos[f"demo_0"]["state"] raises KeyError —
saving with no session ever started is not an error-free no-op. -/
theorem c5_save_keyerror_counterexample : cmd_n ctrl0 = Except.error () := rfl

/-- C5 (amended): reject with nothing recorded is an error-free no-op
beyond clearing the flag and force-setting the two events; it empties the
buffers and touches neither demos nor idx.  Save is error free exactly when
demos already holds the key demo_idx (a b was issued for the current
index, even if followed by a reject); with empty buffers it then stores two
empty sequences under that key and advances idx.  Save while demo_idx is
absent — in particular before any b was ever issued — raises KeyError. -/
theorem c5_commands_no_session (c : CtrlSt) (v : DemoVal) :
    ((cmd_m c).record_on = false ∧ (cmd_m c).tick_evt = true ∧
      (cmd_m c).cam_done = true ∧ (cmd_m c).state = [] ∧ (cmd_m c).rgb = [] ∧
      (cmd_m c).demos = c.demos ∧ (cmd_m c).idx = c.idx ∧
      (cmd_m c).quit_on = c.quit_on) ∧
    (assocGet c.idx c.demos = none → cmd_n c = Except.error ()) ∧
    (assocGet c.idx c.demos = some v → c.state = [] → c.rgb = [] →
      cmd_n c = Except.ok (cmd_n_ok c)) := by
  refine ⟨⟨rfl, rfl, rfl, rfl, rfl, rfl, rfl, rfl⟩, ?_, ?_⟩
  · intro h
    simp only [cmd_n, h]
  · intro h h1 h2
    simp only [cmd_n, cmd_n_ok, h, h1, h2, trimToSave]
    rfl

def c5post : CtrlSt := cmd_b ctrl0

theorem c5_commands_no_session_witness :
    (cmd_m ctrl0).state = [] ∧ (cmd_m ctrl0).rgb = [] ∧
    cmd_n ctrl0 = Except.error () ∧
    cmd_n c5post = Except.ok (cmd_n_ok c5post) := by
  have h0 := c5_commands_no_session ctrl0 none
  have h1 := c5_commands_no_session c5post none
  exact ⟨h0.1.2.2.2.1, h0.1.2.2.2.2.1, h0.2.1 (by rfl),
    h1.2.2 (by rfl) (by rfl) (by rfl)⟩

def c10res : CtrlSt := ((cmd_n (cmd_b ctrl0)).toOption).getD ctrl0

/-- C10: the b branch immediately inserts the empty placeholder
demos[demo_idx] = {} and does not advance idx; the m branch (reject)
removes nothing from demos and does not advance idx; the q branch touches
neither; only a successful n branch advances idx.  Hence a session that is
started and then rejected leaves the empty demo_idx entry in demos: it is
counted by the final Total-demos-saved tally (len(demos), printed before
the instruction key is added), and if no later save fills that key it is
written to the pickle with no state or rgb entries. -/
theorem c10_reject_leaves_placeholder (c c' : CtrlSt) :
    ((cmd_b c).demos = assocSet c.idx none c.demos ∧ (cmd_b c).idx = c.idx) ∧
    ((cmd_m c).demos = c.demos ∧ (cmd_m c).idx = c.idx) ∧
    ((cmd_q c).demos = c.demos ∧ (cmd_q c).idx = c.idx) ∧
    (cmd_n c = Except.ok c' → c'.idx = c.idx + 1) ∧
    ((cmd_q (cmd_m (cmd_b ctrl0))).demos = [(0, (none : DemoVal))] ∧
      tallyPrinted (cmd_q (cmd_m (cmd_b ctrl0))) = 1 ∧
      picklePayload (cmd_q (cmd_m (cmd_b ctrl0))) 7 =
        some ([(0, (none : DemoVal))], 7)) := by
  refine ⟨⟨rfl, rfl⟩, ⟨rfl, rfl⟩, ⟨rfl, rfl⟩, ?_, ⟨rfl, rfl, rfl⟩⟩
  intro h
  cases hx : assocGet c.idx c.demos with
  | none =>
      simp only [cmd_n, hx] at h
      exact Except.noConfusion h
  | some w =>
      simp only [cmd_n, hx] at h
      have := Except.ok.inj h
      subst this
      rfl

theorem c10_reject_leaves_placeholder_witness :
    ((cmd_b ctrl0).demos = assocSet ctrl0.idx none ctrl0.demos) ∧
    ((cmd_m (cmd_b ctrl0)).demos = [(0, (none : DemoVal))]) ∧
    c10res.idx = (cmd_b ctrl0).idx + 1 := by
  have h := c10_reject_leaves_placeholder (cmd_b ctrl0) c10res
  exact ⟨(c10_reject_leaves_placeholder ctrl0 ctrl0).1.1,
    h.2.2.2.2.1, h.2.2.2.1 (by rfl)⟩
